import Mathlib

/-!
# A verification model of `corestore` (src/index.js)

This file gives a shallow embedding of the corestore store: a registry and
lifecycle manager for append-only log handles ("cores") plus a multiplexer
that attaches cores onto replication sessions.

The embedding is a small-step operational semantics.  The synchronous parts
of the source (`_optsToIndex`, `get`, `default`, `replicate`, `close`,
`isDefaultSet`, `getInfo`, `list`, `_replicateCore`) become Lean functions on
an explicit `World` state.  The asynchronous notifications of the JS runtime
(a core's `ready`/`error` events, a stream's `feed` announcements and its
`finish`/`end`/`close` termination signals, and the callback of
`core.close(cb)`) become constructors of a `Step` relation: the environment
delivers one event at a time and the corresponding registered handler runs
atomically, which matches the single-threaded cooperative scheduling model
of the source.

External collaborators are modelled at their interface boundary only:

* keys are natural numbers; `discoveryKey` (hypercore-crypto), a one-way
  deterministic derivation of a public key, is modelled by the injective
  function `k ↦ 2 * k + 1`;
* `dat-encoding` text/binary forms are the two constructors of `BufOrStr`;
  decoding is lossless, so both carry the binary value.  Index strings are
  `IdxStr`: either a literal string (the `'default'` marker or a name) or
  the text encoding `IdxStr.enc b` of a binary key `b` (encoded keys are
  64-character hex strings, disjoint from human-chosen names);
* the hypercore engine supplies readiness/error notifications: a core
  created with a known public key learns nothing new at readiness; a core
  created blank (name/default path) learns its keypair at readiness; a core
  created in discovery-only mode either becomes ready with the public key
  stored on disk (whose derived discovery key matches, which is the `hdk`
  side condition of the `Step.evReady` rule) or errors if no log exists.
-/

namespace Corestore

abbrev Key := Nat
abbrev CoreId := Nat
abbrev StreamId := Nat

/-- Modelled from the spec: `discoveryKey` (hypercore-crypto) is a
deterministic one-way derivation of a public key.  We use an injective
computable stand-in. -/
def discoveryKey (k : Key) : Key := 2 * k + 1

/-- A key argument as the source accepts it: either a binary `Buffer` or its
textual (`dat-encoding`) form.  Decoding is deterministic and lossless. -/
inductive BufOrStr
  | buf (b : Key)
  | txt (b : Key)
deriving DecidableEq, Repr

/-- `datEncoding.decode` (used at src/index.js:34); on an already-binary
value the source skips the decode, so both forms yield the binary key. -/
def datDecode : BufOrStr → Key
  | .buf b => b
  | .txt b => b

/-- An index string of the core registry map: a literal string (the
`'default'` marker of src/index.js:24 or a user name, src/index.js:26) or
`datEncoding.encode` of a binary key (src/index.js:89,121,122). -/
inductive IdxStr
  | str (s : String)
  | enc (b : Key)
deriving DecidableEq, Repr

/-- Options accepted by `get`/`default` (src/index.js passim): zero or more
of default-flag, name, key, discoveryKey, secretKey, keyPair.  The
`coreOpts instanceof Buffer` convenience form (src/index.js:74,84) is the
same as `{ key := some (.buf b) }` and is not modelled separately. -/
structure CoreOpts where
  default : Bool := false
  name : Option String := none
  key : Option BufOrStr := none
  discoveryKey : Option BufOrStr := none
  secretKey : Option Key := none
  keyPair : Option (Key × Key) := none
deriving DecidableEq, Repr

/-- JS truthiness of an optional string: the empty string is falsy
(src/index.js:25 tests `coreOpts.name &&`). -/
def truthy : Option String → Bool
  | some s => s ≠ ""
  | none => false

/-- Result of `_optsToIndex` (src/index.js:40): the canonical index, the
resolved public key and secret key.  `generated` records whether
`crypto.keyPair()` was consumed (a fresh keypair), which the model threads
through a counter. -/
structure IdxRes where
  idx : IdxStr
  key : Option Key
  secretKey : Option Key
  generated : Bool
deriving DecidableEq, Repr

/-- `_optsToIndex(coreOpts)` (src/index.js:22-41).  `freshPub`/`freshSec`
stand for the keypair `crypto.keyPair()` would generate if consumed.
Branch order follows the source: default marker, then verbatim name, then
key-or-discoveryKey (a supplied public key is re-derived to its discovery
key, src/index.js:36), then supplied-or-fresh keypair. -/
def optsToIndex (freshPub freshSec : Key) (o : CoreOpts) : IdxRes :=
  if o.default && o.key.isNone && o.secretKey.isNone then
    { idx := .str "default", key := none, secretKey := none, generated := false }
  else if truthy o.name && o.key.isNone && o.secretKey.isNone then
    { idx := .str (o.name.getD ""), key := none, secretKey := none, generated := false }
  else
    match o.key.orElse (fun _ => o.discoveryKey) with
    | none =>
      match o.keyPair with
      | some kp =>
        { idx := .enc (discoveryKey kp.1), key := some kp.1, secretKey := some kp.2,
          generated := false }
      | none =>
        { idx := .enc (discoveryKey freshPub), key := some freshPub,
          secretKey := some freshSec, generated := true }
    | some raw =>
      let b := datDecode raw
      if o.key.isSome then
        { idx := .enc (discoveryKey b), key := some b, secretKey := none, generated := false }
      else
        { idx := .enc b, key := none, secretKey := none, generated := false }

/-- Lifecycle state of a core handle (spec §3): `Pending → Ready`,
`Pending → Errored`, `Ready → Closed`. -/
inductive CoreStatus
  | pending
  | ready
  | errored
  | closed
deriving DecidableEq, Repr

/-- One hypercore handle as corestore observes it.  `discoveryOnly` records
that the open request carried a `discoveryKey` option, which both sets
`createIfMissing: false` (src/index.js:104) and arms the transient error
listener (src/index.js:109-115). -/
structure CoreRec where
  key : Option Key
  secretKey : Option Key
  dk : Option Key
  discoveryOnly : Bool
  status : CoreStatus
deriving DecidableEq, Repr

/-- One replication session's stream.  `feeds` is `mainStream.feeds`
projected to the attached core handles (src/index.js:49-51); `destroyCount`
counts `stream.destroy()` signals (src/index.js:179); `closedFlag` is the
`closed` variable guarding `onclose` (src/index.js:146,166-171). -/
structure StreamRec where
  feeds : List CoreId
  destroyCount : Nat
  closedFlag : Bool
deriving DecidableEq, Repr

/-- The whole store plus the handles it owns and the model's event
bookkeeping.  `cores` is the registry `Map` as an association list with JS
`Map.set` semantics; `pendingAttach` holds `core.ready` callbacks queued by
`_replicateCore` on a not-yet-ready core; `pendingClose` holds outstanding
`core.close(onclose)` callbacks of `close()`; `closeCtx` is the captured
`remaining` counter; `cbLog` records every invocation of the `close`
callback with its error argument; `keyGen` feeds `crypto.keyPair()`. -/
structure World where
  storeId : Nat
  coreTab : List CoreRec
  streamTab : List StreamRec
  cores : List (IdxStr × CoreId)
  replicationStreams : List StreamId
  defaultCore : Option CoreId
  pendingAttach : List (CoreId × StreamId)
  pendingClose : List CoreId
  closeCtx : Option Int
  cbLog : List (Option Nat)
  keyGen : Nat
deriving DecidableEq, Repr

/-- JS `Map.get` on the registry association list. -/
def mapGet (k : IdxStr) : List (IdxStr × CoreId) → Option CoreId
  | [] => none
  | p :: rest => if p.1 = k then some p.2 else mapGet k rest

/-- JS `Map.set`: update the existing binding in place, else append. -/
def mapSet (k : IdxStr) (v : CoreId) : List (IdxStr × CoreId) → List (IdxStr × CoreId)
  | [] => [(k, v)]
  | p :: rest => if p.1 = k then (k, v) :: rest else p :: mapSet k v rest

def statusOf (w : World) (c : CoreId) : Option CoreStatus :=
  (w.coreTab[c]?).map (·.status)

def feedsOf (w : World) (s : StreamId) : List CoreId :=
  ((w.streamTab[s]?).map (·.feeds)).getD []

def setStream (w : World) (s : StreamId) (st : StreamRec) : World :=
  { w with streamTab := w.streamTab.set s st }

def setCore (w : World) (c : CoreId) (cr : CoreRec) : World :=
  { w with coreTab := w.coreTab.set c cr }

/-- `_replicateCore(core, mainStream, opts)` (src/index.js:43-57): runs
`core.ready(cb)`.  When the core is already ready the callback runs at
once: it scans `mainStream.feeds` and, unless the core is already attached,
calls `core.replicate({stream: mainStream})`, which attaches the core to
the stream.  On a pending core the callback is queued; on an errored or
closed core the callback receives an error and returns without attaching. -/
def replicateCore (c : CoreId) (s : StreamId) (w : World) : World :=
  match w.coreTab[c]? with
  | none => w
  | some cr =>
    match cr.status with
    | .pending => { w with pendingAttach := w.pendingAttach ++ [(c, s)] }
    | .ready =>
      match w.streamTab[s]? with
      | none => w
      | some st =>
        if c ∈ st.feeds then w
        else setStream w s { st with feeds := st.feeds ++ [c] }
    | _ => w

/-- `injectIntoReplicationStreams(core)` (src/index.js:128-132): attach the
core to every active replication session. -/
def injectIntoReplicationStreams (c : CoreId) (w : World) : World :=
  w.replicationStreams.foldl (fun acc s => replicateCore c s acc) w

/-- `get(coreOpts)` (src/index.js:83-133).  Resolves the canonical index;
on a registry hit returns the existing handle after re-injecting it into
all sessions; on a miss synchronously creates a new pending handle (the
storage-root computation of src/index.js:96-99 only shapes the on-disk
directory layout and is not modelled).  Registration in the registry, the
`feed` emission and the injection into sessions happen later, in the
`ready` handler (src/index.js:117-124), modelled by `deliverReady`. -/
def get (o : CoreOpts) (w : World) : World × CoreId :=
  let r := optsToIndex w.keyGen w.keyGen o
  let w1 := if r.generated then { w with keyGen := w.keyGen + 1 } else w
  match mapGet r.idx w1.cores with
  | some existing => (injectIntoReplicationStreams existing w1, existing)
  | none =>
    let cid := w1.coreTab.length
    let cr : CoreRec :=
      { key := r.key
        secretKey := o.secretKey.orElse (fun _ => r.secretKey)
        dk := (r.key.map discoveryKey).orElse (fun _ => o.discoveryKey.map datDecode)
        discoveryOnly := o.discoveryKey.isSome
        status := .pending }
    ({ w1 with coreTab := w1.coreTab ++ [cr] }, cid)

/-- Delivery of a core's `ready` event.  Sets the resolved identity (for a
blank or discovery-only core the engine supplies the public key `pk`), then
runs the `once('ready')` handler of src/index.js:117-124: register the
handle under the text encodings of its publicKey and discoveryKey and
inject it into every active session; finally any `core.ready` callbacks
queued by `_replicateCore` run. -/
def deliverReady (c : CoreId) (pk : Key) (w : World) : World :=
  match w.coreTab[c]? with
  | none => w
  | some cr =>
    if cr.status = .pending then
      let k := cr.key.getD pk
      let d := cr.dk.getD (discoveryKey k)
      let w1 := setCore w c { cr with key := some k, dk := some d, status := .ready }
      let w2 := { w1 with cores := mapSet (.enc d) c (mapSet (.enc k) c w1.cores) }
      let w3 := injectIntoReplicationStreams c w2
      let pend := w3.pendingAttach.filter (fun p => p.1 == c)
      let w4 := { w3 with pendingAttach := w3.pendingAttach.filter (fun p => p.1 != c) }
      pend.foldl (fun acc p => replicateCore c p.2 acc) w4
    else w

/-- Delivery of a core's `error` event before readiness.  The transient
`errorListener` (src/index.js:109-115) only flags discovery-only absence;
in either case the `ready` handler never fires, so the handle is never
registered and no error reaches the caller of `get`. -/
def deliverError (c : CoreId) (w : World) : World :=
  match w.coreTab[c]? with
  | none => w
  | some cr =>
    if cr.status = .pending then setCore w c { cr with status := .errored } else w

/-- `default(coreOpts)` (src/index.js:73-81), the spec's `getDefault`. -/
def getDefault (o : CoreOpts) (w : World) : World × CoreId :=
  match w.defaultCore with
  | some c => (w, c)
  | none =>
    let o' := if o.keyPair.isNone && o.key.isNone then { o with default := true } else o
    let p := get o' w
    ({ p.1 with defaultCore := some p.2 }, p.2)

def isDefaultSet (w : World) : Bool :=
  w.defaultCore.isSome

/-- `list()` (src/index.js:197-199): a point-in-time copy of the registry. -/
def listCores (w : World) : List (IdxStr × CoreId) :=
  w.cores

/-- Result record of `getInfo` (src/index.js:63-71). -/
structure StoreInfo where
  id : Nat
  defaultKey : Option Key
  discoveryKey : Option Key
  replicationId : CoreId
  cores : List (IdxStr × CoreId)
deriving DecidableEq, Repr

/-- `getInfo()` (src/index.js:63-71).  `defaultKey` and `discoveryKey` are
null-guarded (`this.defaultCore && ...`) but `replicationId:
this.defaultCore.id` is not, so with no default core the accessor throws a
TypeError, modelled as `Except.error`. -/
def getInfo (w : World) : Except Unit StoreInfo :=
  match w.defaultCore with
  | none => .error ()
  | some dc =>
    .ok { id := w.storeId
          defaultKey := (w.coreTab[dc]?).bind (·.key)
          discoveryKey := (w.coreTab[dc]?).bind (·.dk)
          replicationId := dc
          cores := w.cores }

/-- Options of `replicate` that the control plane inspects; the rest of
`finalOpts` is engine passthrough. -/
structure ReplOpts where
  encrypt : Bool := false
deriving DecidableEq, Repr

/-- `replicate(discoveryKey, replicationOpts)` (src/index.js:135-172).  The
leading `discoveryKey` parameter is never used after the argument shuffle
at src/index.js:136, so it is not modelled.  Throwing `new Error('A main
core must be specified before replication.')` (the ConfigurationError) is
modelled as `Except.error`.  The created stream starts with the default
core attached when one exists (`this.defaultCore.replicate(...)` binds the
session to the store's primary identity); then every registered core is
attached via `_replicateCore`; the `feed`/termination subscriptions are
modelled by the `Step` event rules; finally the session is pushed onto
`replicationStreams`. -/
def replicate (ro : ReplOpts) (w : World) : Except Unit (World × StreamId) :=
  if w.defaultCore.isNone && ro.encrypt then
    .error ()
  else
    let sid := w.streamTab.length
    let feeds0 : List CoreId := match w.defaultCore with | some dc => [dc] | none => []
    let st : StreamRec := { feeds := feeds0, destroyCount := 0, closedFlag := false }
    let w1 := { w with streamTab := w.streamTab ++ [st] }
    let w2 := w1.cores.foldl (fun acc p => replicateCore p.2 sid acc) w1
    .ok ({ w2 with replicationStreams := w2.replicationStreams ++ [sid] }, sid)

/-- The three distinct stream termination signals (src/index.js:157-159). -/
inductive TermSig
  | fin
  | ended
  | closeSig
deriving DecidableEq, Repr

/-- JS `arr.splice(arr.indexOf(x), 1)` (src/index.js:168): removes the
first occurrence of `x`; when `x` is absent, `indexOf` returns `-1` and
`splice(-1, 1)` removes the last element of the array. -/
def spliceRemove (s : StreamId) (l : List StreamId) : List StreamId :=
  if s ∈ l then l.erase s else l.dropLast

/-- The shared `onclose` handler of a session (src/index.js:166-171),
guarded by the session's `closed` flag. -/
def onclose (s : StreamId) (w : World) : World :=
  match w.streamTab[s]? with
  | none => w
  | some st =>
    if st.closedFlag then w
    else
      let w1 := { w with replicationStreams := spliceRemove s w.replicationStreams }
      setStream w1 s { st with closedFlag := true }

/-- All three termination signals are subscribed to the same `onclose`
handler (src/index.js:157-159); the handler does not depend on which
signal fired. -/
def streamTermHandler (sig : TermSig) (s : StreamId) (w : World) : World :=
  onclose s w

/-- The `reset` closure of `close` (src/index.js:190-194): empty both
collections and invoke the caller's callback. -/
def reset (e : Option Nat) (w : World) : World :=
  { w with cores := [], replicationStreams := [], cbLog := w.cbLog ++ [e] }

/-- The synchronous part of `close(cb)` (src/index.js:174-183): capture
`remaining = this.cores.size` (the number of map entries, two per ready
core), destroy every session's stream, and issue `core.close(onclose)` for
every map entry whose core is not already closed.  The callbacks arrive
later as `Step.evCloseDone` events. -/
def close (w : World) : World :=
  let remaining : Int := (w.cores.length : Int)
  let w1 := w.replicationStreams.foldl (fun acc s =>
      match acc.streamTab[s]? with
      | some st => setStream acc s { st with destroyCount := st.destroyCount + 1 }
      | none => acc) w
  let issued := (w1.cores.map (·.2)).filter (fun c => decide (statusOf w1 c ≠ some .closed))
  { w1 with pendingClose := w1.pendingClose ++ issued, closeCtx := some remaining }

/-- Completion of one `core.close(onclose)` callback (src/index.js:185-194)
with optional error `e`: the core finishes closing, then `onclose` runs —
on error it resets at once with that error; on success it decrements
`remaining` and resets with `null` when the counter reaches zero. -/
def coreCloseDone (c : CoreId) (e : Option Nat) (w : World) : World :=
  let w1 := { w with pendingClose := w.pendingClose.erase c }
  let w2 :=
    if e.isNone then
      match w1.coreTab[c]? with
      | some cr => setCore w1 c { cr with status := .closed }
      | none => w1
    else w1
  match w2.closeCtx with
  | none => w2
  | some rem =>
    match e with
    | some err => reset (some err) w2
    | none =>
      let rem' := rem - 1
      let w3 := { w2 with closeCtx := some rem' }
      if rem' = 0 then reset none w3 else w3

/-- A freshly constructed store (src/index.js:10-20) with store id `sid`. -/
def init (sid : Nat) : World :=
  { storeId := sid, coreTab := [], streamTab := [], cores := [],
    replicationStreams := [], defaultCore := none, pendingAttach := [],
    pendingClose := [], closeCtx := none, cbLog := [], keyGen := 0 }

/-- One step of the store's execution: either a caller invokes a public
operation, or the environment delivers one asynchronous notification and
the registered handler runs atomically.  `evReady`'s `hdk` side condition
is the engine's content verification: a discovery-only core can only
become ready with the public key whose derived discovery key it was opened
under.  `opClose` is taken on a store with no close in flight (the claims
under study involve a single `close` call). -/
inductive Step : World → World → Prop
  | opGet (w : World) (o : CoreOpts) : Step w (get o w).1
  | opDefault (w : World) (o : CoreOpts) : Step w (getDefault o w).1
  | opReplicate (w w' : World) (ro : ReplOpts) (sid : StreamId)
      (h : replicate ro w = .ok (w', sid)) : Step w w'
  | opClose (w : World) (h : w.closeCtx = none) : Step w (close w)
  | evReady (w : World) (c : CoreId) (pk : Key) (cr : CoreRec)
      (hc : w.coreTab[c]? = some cr) (hp : cr.status = .pending)
      (hdk : cr.discoveryOnly = true → cr.dk = some (discoveryKey pk)) :
      Step w (deliverReady c pk w)
  | evError (w : World) (c : CoreId) (cr : CoreRec)
      (hc : w.coreTab[c]? = some cr) (hp : cr.status = .pending) :
      Step w (deliverError c w)
  | evFeed (w : World) (s : StreamId) (d : Key) (hs : s < w.streamTab.length) :
      Step w (get { discoveryKey := some (.buf d) } w).1
  | evTerm (w : World) (s : StreamId) (sig : TermSig) (hs : s < w.streamTab.length) :
      Step w (streamTermHandler sig s w)
  | evCloseDone (w : World) (c : CoreId) (e : Option Nat) (hc : c ∈ w.pendingClose) :
      Step w (coreCloseDone c e w)

/-- Reachability from a freshly constructed store. -/
def Reach (w : World) : Prop :=
  ∃ sid, Relation.ReflTransGen Step (init sid) w

/-! ## Registry map lemmas -/

theorem mapGet_mapSet_self (k : IdxStr) (v : CoreId) (m : List (IdxStr × CoreId)) :
    mapGet k (mapSet k v m) = some v := by
  induction m with
  | nil => simp [mapGet, mapSet]
  | cons p rest ih =>
    by_cases h : p.1 = k
    · simp [mapGet, mapSet, h]
    · simp [mapGet, mapSet, h, ih]

theorem mapGet_mapSet_ne {k' k : IdxStr} (v : CoreId) (m : List (IdxStr × CoreId))
    (h : k' ≠ k) : mapGet k' (mapSet k v m) = mapGet k' m := by
  have h1 : ¬(k = k') := fun hh => h hh.symm
  induction m with
  | nil => simp [mapSet, mapGet, h1]
  | cons p rest ih =>
    by_cases hp : p.1 = k
    · have h2 : ¬(p.1 = k') := fun hh => h1 (hp ▸ hh)
      simp [mapSet, mapGet, hp, h1, h2]
    · simp [mapSet, mapGet, hp, ih]

theorem mem_mapSet {i k : IdxStr} {c v : CoreId} {m : List (IdxStr × CoreId)}
    (h : (i, c) ∈ mapSet k v m) : (i = k ∧ c = v) ∨ (i, c) ∈ m := by
  induction m with
  | nil =>
    simp only [mapSet, List.mem_singleton, Prod.mk.injEq] at h
    exact Or.inl h
  | cons p rest ih =>
    by_cases hp : p.1 = k
    · simp only [mapSet, hp, if_pos] at h
      rcases List.mem_cons.mp h with h1 | h1
      · rw [Prod.mk.injEq] at h1
        exact Or.inl h1
      · exact Or.inr (List.mem_cons_of_mem _ h1)
    · simp only [mapSet, hp, if_neg, not_false_iff] at h
      rcases List.mem_cons.mp h with h1 | h1
      · exact Or.inr (h1 ▸ List.mem_cons_self _ _)
      · rcases ih h1 with h2 | h2
        · exact Or.inl h2
        · exact Or.inr (List.mem_cons_of_mem _ h2)

theorem mapGet_eq_some_mem {k : IdxStr} {c : CoreId} {m : List (IdxStr × CoreId)}
    (h : mapGet k m = some c) : (k, c) ∈ m := by
  induction m with
  | nil => simp [mapGet] at h
  | cons p rest ih =>
    by_cases hp : p.1 = k
    · simp only [mapGet, hp, if_pos] at h
      obtain ⟨a, b⟩ := p
      simp only at hp
      have hb : b = c := Option.some.inj h
      subst hp; subst hb
      exact List.mem_cons_self _ _
    · simp only [mapGet, hp, if_neg, not_false_iff] at h
      exact List.mem_cons_of_mem _ (ih h)

/-! ## Basic state observations -/

theorem statusOf_congr {w' w : World} (c : CoreId) (h : w'.coreTab = w.coreTab) :
    statusOf w' c = statusOf w c := by
  simp [statusOf, h]

theorem feedsOf_congr {w' w : World} (s : StreamId) (h : w'.streamTab = w.streamTab) :
    feedsOf w' s = feedsOf w s := by
  simp [feedsOf, h]

theorem feedsOf_eq {w : World} {s : StreamId} {st : StreamRec}
    (h : w.streamTab[s]? = some st) : feedsOf w s = st.feeds := by
  simp [feedsOf, h]

theorem statusOf_lt {w : World} {c : CoreId} {x : CoreStatus}
    (h : statusOf w c = some x) : c < w.coreTab.length := by
  unfold statusOf at h
  cases hc : w.coreTab[c]? with
  | none => rw [hc] at h; simp at h
  | some cr => exact (List.getElem?_eq_some.mp hc).1

/-- The part of the state that `_replicateCore` and its folds never touch
(everything except `streamTab` contents and `pendingAttach`). -/
def frame (w : World) :=
  (w.storeId, w.coreTab, w.cores, w.replicationStreams, w.defaultCore,
   w.pendingClose, w.closeCtx, w.cbLog, w.keyGen, w.streamTab.length)

/-! ## `_replicateCore` lemmas -/

/-- Full case analysis of `_replicateCore`. -/
theorem replicateCore_cases (c : CoreId) (s : StreamId) (w : World) :
    replicateCore c s w = w ∨
    (statusOf w c = some .pending ∧
      replicateCore c s w = { w with pendingAttach := w.pendingAttach ++ [(c, s)] }) ∨
    (∃ st, statusOf w c = some .ready ∧ w.streamTab[s]? = some st ∧ c ∉ st.feeds ∧
      replicateCore c s w = setStream w s { st with feeds := st.feeds ++ [c] }) := by
  cases hc : w.coreTab[c]? with
  | none => exact Or.inl (by simp only [replicateCore, hc])
  | some cr =>
    have hst : statusOf w c = some cr.status := by simp [statusOf, hc]
    cases hs : cr.status with
    | pending =>
      exact Or.inr (Or.inl ⟨hs ▸ hst, by simp only [replicateCore, hc, hs]⟩)
    | ready =>
      cases ht : w.streamTab[s]? with
      | none => exact Or.inl (by simp only [replicateCore, hc, hs, ht])
      | some st =>
        by_cases hm : c ∈ st.feeds
        · exact Or.inl (by simp only [replicateCore, hc, hs, ht, hm, if_pos])
        · refine Or.inr (Or.inr ⟨st, hs ▸ hst, rfl, hm, ?_⟩)
          simp only [replicateCore, hc, hs, ht, hm, if_neg, not_false_iff]
    | errored => exact Or.inl (by simp only [replicateCore, hc, hs])
    | closed => exact Or.inl (by simp only [replicateCore, hc, hs])

theorem replicateCore_frame (c : CoreId) (s : StreamId) (w : World) :
    frame (replicateCore c s w) = frame w := by
  rcases replicateCore_cases c s w with h | ⟨_, h⟩ | ⟨st, _, _, _, h⟩ <;> rw [h] <;>
    simp [frame, setStream]

theorem feedsOf_replicateCore (c : CoreId) (s : StreamId) (w : World) (t : StreamId) :
    feedsOf (replicateCore c s w) t = feedsOf w t ∨
    (t = s ∧ statusOf w c = some .ready ∧ c ∉ feedsOf w t ∧
      feedsOf (replicateCore c s w) t = feedsOf w t ++ [c]) := by
  rcases replicateCore_cases c s w with h | ⟨_, h⟩ | ⟨st, h1, h2, h3, h⟩
  · exact Or.inl (by rw [h])
  · exact Or.inl (by rw [h]; rfl)
  · by_cases ht : t = s
    · subst ht
      refine Or.inr ⟨rfl, h1, ?_, ?_⟩
      · rw [feedsOf_eq h2]; exact h3
      · rw [h, feedsOf_eq h2]
        have hlt : t < w.streamTab.length := (List.getElem?_eq_some.mp h2).1
        simp [feedsOf, setStream, List.getElem?_set_eq hlt]
    · refine Or.inl ?_
      rw [h]
      simp [feedsOf, setStream, List.getElem?_set_ne (fun he => ht he.symm)]

theorem mem_feedsOf_replicateCore {x c : CoreId} {s t : StreamId} {w : World}
    (h : x ∈ feedsOf w t) : x ∈ feedsOf (replicateCore c s w) t := by
  rcases feedsOf_replicateCore c s w t with he | ⟨_, _, _, he⟩ <;> rw [he]
  · exact h
  · exact List.mem_append_left _ h

theorem mem_feedsOf_replicateCore_elim {x c : CoreId} {s t : StreamId} {w : World}
    (h : x ∈ feedsOf (replicateCore c s w) t) :
    x ∈ feedsOf w t ∨ (x = c ∧ statusOf w c = some .ready) := by
  rcases feedsOf_replicateCore c s w t with he | ⟨_, hr, _, he⟩ <;> rw [he] at h
  · exact Or.inl h
  · rcases List.mem_append.mp h with h1 | h1
    · exact Or.inl h1
    · exact Or.inr ⟨List.mem_singleton.mp h1, hr⟩

theorem nodup_append_one {l : List CoreId} {c : CoreId} (h : l.Nodup) (hc : c ∉ l) :
    (l ++ [c]).Nodup := by
  rw [List.nodup_append]
  refine ⟨h, List.nodup_singleton c, ?_⟩
  intro a ha hm
  exact hc ((List.mem_singleton.mp hm) ▸ ha)

theorem nodup_feedsOf_replicateCore {c : CoreId} {s : StreamId} {w : World} (t : StreamId)
    (h : (feedsOf w t).Nodup) : (feedsOf (replicateCore c s w) t).Nodup := by
  rcases feedsOf_replicateCore c s w t with he | ⟨_, _, hn, he⟩ <;> rw [he]
  · exact h
  · exact nodup_append_one h hn

theorem feedsOf_setStream_self {w : World} {s : StreamId} (st : StreamRec)
    (hs : s < w.streamTab.length) : feedsOf (setStream w s st) s = st.feeds := by
  simp [feedsOf, setStream, List.getElem?_set, hs]

theorem frame_fields {w' w : World} (h : frame w' = frame w) :
    w'.storeId = w.storeId ∧ w'.coreTab = w.coreTab ∧ w'.cores = w.cores ∧
    w'.replicationStreams = w.replicationStreams ∧ w'.defaultCore = w.defaultCore ∧
    w'.pendingClose = w.pendingClose ∧ w'.closeCtx = w.closeCtx ∧
    w'.cbLog = w.cbLog ∧ w'.keyGen = w.keyGen ∧
    w'.streamTab.length = w.streamTab.length := by
  simp only [frame, Prod.mk.injEq] at h
  exact h

theorem replicateCore_attach {c : CoreId} {s : StreamId} {w : World}
    (hr : statusOf w c = some .ready) (hs : s < w.streamTab.length) :
    c ∈ feedsOf (replicateCore c s w) s := by
  cases hc : w.coreTab[c]? with
  | none => simp [statusOf, hc] at hr
  | some cr =>
    have hcs : cr.status = .ready := by
      simp only [statusOf, hc, Option.map_some'] at hr
      exact Option.some.inj hr
    cases ht : w.streamTab[s]? with
    | none =>
      exact absurd (Nat.lt_of_lt_of_le hs (List.getElem?_eq_none_iff.mp ht))
        (Nat.lt_irrefl s)
    | some st =>
      by_cases hm : c ∈ st.feeds
      · rw [show replicateCore c s w = w by
          simp only [replicateCore, hc, hcs, ht, hm, if_pos]]
        rw [feedsOf_eq ht]
        exact hm
      · rw [show replicateCore c s w = setStream w s { st with feeds := st.feeds ++ [c] } by
          simp only [replicateCore, hc, hcs, ht, hm, if_neg, not_false_iff]]
        rw [feedsOf_setStream_self _ hs]
        simp

theorem replicateCore_pendingAttach {c : CoreId} {s : StreamId} {w : World}
    (h : statusOf w c ≠ some .pending) :
    (replicateCore c s w).pendingAttach = w.pendingAttach := by
  rcases replicateCore_cases c s w with he | ⟨hp, _⟩ | ⟨st, _, _, _, he⟩
  · rw [he]
  · exact absurd hp h
  · rw [he]; rfl

theorem replicateCore_noop {c : CoreId} {s : StreamId} {w : World}
    (hr : statusOf w c = some .ready) (hm : c ∈ feedsOf w s) :
    replicateCore c s w = w := by
  cases hc : w.coreTab[c]? with
  | none => simp only [replicateCore, hc]
  | some cr =>
    have hcs : cr.status = .ready := by
      simp only [statusOf, hc, Option.map_some'] at hr
      exact Option.some.inj hr
    cases ht : w.streamTab[s]? with
    | none => simp only [replicateCore, hc, hcs, ht]
    | some st =>
      rw [feedsOf_eq ht] at hm
      simp only [replicateCore, hc, hcs, ht, hm, if_pos]

theorem statusOf_replicateCore (c : CoreId) (s : StreamId) (w : World) (x : CoreId) :
    statusOf (replicateCore c s w) x = statusOf w x :=
  statusOf_congr x (frame_fields (replicateCore_frame c s w)).2.1

/-! ## Fold lemmas: injecting one core into a list of sessions -/

/-- The fold inside `injectIntoReplicationStreams`, over an explicit list of
sessions. -/
def injFold (c : CoreId) (l : List StreamId) (w : World) : World :=
  l.foldl (fun acc s => replicateCore c s acc) w

theorem injectIntoReplicationStreams_eq (c : CoreId) (w : World) :
    injectIntoReplicationStreams c w = injFold c w.replicationStreams w := rfl

theorem injFold_cons (c : CoreId) (a : StreamId) (r : List StreamId) (w : World) :
    injFold c (a :: r) w = injFold c r (replicateCore c a w) := by
  simp [injFold]

theorem injFold_frame (c : CoreId) (l : List StreamId) :
    ∀ w, frame (injFold c l w) = frame w := by
  induction l with
  | nil => intro w; rfl
  | cons a r ih =>
    intro w
    rw [injFold_cons]
    exact (ih _).trans (replicateCore_frame c a w)

theorem statusOf_injFold (c : CoreId) (l : List StreamId) (w : World) (x : CoreId) :
    statusOf (injFold c l w) x = statusOf w x :=
  statusOf_congr x (frame_fields (injFold_frame c l w)).2.1

theorem mem_feedsOf_injFold {x c : CoreId} {t : StreamId} (l : List StreamId) :
    ∀ {w : World}, x ∈ feedsOf w t → x ∈ feedsOf (injFold c l w) t := by
  induction l with
  | nil => intro w h; exact h
  | cons a r ih =>
    intro w h
    rw [injFold_cons]
    exact ih (mem_feedsOf_replicateCore h)

theorem mem_feedsOf_injFold_elim {x c : CoreId} {t : StreamId} (l : List StreamId) :
    ∀ {w : World}, x ∈ feedsOf (injFold c l w) t → x ∈ feedsOf w t ∨ x = c := by
  induction l with
  | nil => intro w h; exact Or.inl h
  | cons a r ih =>
    intro w h
    rw [injFold_cons] at h
    rcases ih h with h1 | h1
    · rcases mem_feedsOf_replicateCore_elim h1 with h2 | ⟨h2, _⟩
      · exact Or.inl h2
      · exact Or.inr h2
    · exact Or.inr h1

theorem nodup_feedsOf_injFold {c : CoreId} (l : List StreamId) :
    ∀ {w : World}, (∀ t, (feedsOf w t).Nodup) →
      ∀ t, (feedsOf (injFold c l w) t).Nodup := by
  induction l with
  | nil => intro w h; exact h
  | cons a r ih =>
    intro w h
    rw [injFold_cons]
    exact ih (fun t => nodup_feedsOf_replicateCore t (h t))

theorem injFold_attach {c : CoreId} {s : StreamId} (l : List StreamId) :
    ∀ {w : World}, statusOf w c = some .ready → s < w.streamTab.length → s ∈ l →
      c ∈ feedsOf (injFold c l w) s := by
  induction l with
  | nil => intro w _ _ h; simp at h
  | cons a r ih =>
    intro w hr hlen hmem
    rw [injFold_cons]
    rcases List.mem_cons.mp hmem with h1 | h1
    · subst h1
      exact mem_feedsOf_injFold r (replicateCore_attach hr hlen)
    · have hfr := frame_fields (replicateCore_frame c a w)
      refine ih ?_ ?_ h1
      · rw [statusOf_replicateCore]; exact hr
      · rw [hfr.2.2.2.2.2.2.2.2.2]; exact hlen

theorem injFold_pendingAttach {c : CoreId} (l : List StreamId) :
    ∀ {w : World}, statusOf w c ≠ some .pending →
      (injFold c l w).pendingAttach = w.pendingAttach := by
  induction l with
  | nil => intro w _; rfl
  | cons a r ih =>
    intro w hr
    rw [injFold_cons]
    rw [ih (by rw [statusOf_replicateCore]; exact hr)]
    exact replicateCore_pendingAttach hr

/-! ## Fold lemmas: attaching all registered cores onto one session -/

/-- The fold inside `replicate`, over an explicit list of registry
entries. -/
def repFold (sid : StreamId) (l : List (IdxStr × CoreId)) (w : World) : World :=
  l.foldl (fun acc p => replicateCore p.2 sid acc) w

theorem repFold_cons (sid : StreamId) (a : IdxStr × CoreId) (r : List (IdxStr × CoreId))
    (w : World) : repFold sid (a :: r) w = repFold sid r (replicateCore a.2 sid w) := by
  simp [repFold]

theorem repFold_frame (sid : StreamId) (l : List (IdxStr × CoreId)) :
    ∀ w, frame (repFold sid l w) = frame w := by
  induction l with
  | nil => intro w; rfl
  | cons a r ih =>
    intro w
    rw [repFold_cons]
    exact (ih _).trans (replicateCore_frame a.2 sid w)

theorem statusOf_repFold (sid : StreamId) (l : List (IdxStr × CoreId)) (w : World)
    (x : CoreId) : statusOf (repFold sid l w) x = statusOf w x :=
  statusOf_congr x (frame_fields (repFold_frame sid l w)).2.1

theorem mem_feedsOf_repFold {x : CoreId} {t sid : StreamId} (l : List (IdxStr × CoreId)) :
    ∀ {w : World}, x ∈ feedsOf w t → x ∈ feedsOf (repFold sid l w) t := by
  induction l with
  | nil => intro w h; exact h
  | cons a r ih =>
    intro w h
    rw [repFold_cons]
    exact ih (mem_feedsOf_replicateCore h)

theorem mem_feedsOf_repFold_elim {x : CoreId} {t sid : StreamId}
    (l : List (IdxStr × CoreId)) :
    ∀ {w : World}, x ∈ feedsOf (repFold sid l w) t →
      x ∈ feedsOf w t ∨ ∃ p ∈ l, x = p.2 := by
  induction l with
  | nil => intro w h; exact Or.inl h
  | cons a r ih =>
    intro w h
    rw [repFold_cons] at h
    rcases ih h with h1 | ⟨p, hp, hx⟩
    · rcases mem_feedsOf_replicateCore_elim h1 with h2 | ⟨h2, _⟩
      · exact Or.inl h2
      · exact Or.inr ⟨a, List.mem_cons_self _ _, h2⟩
    · exact Or.inr ⟨p, List.mem_cons_of_mem _ hp, hx⟩

theorem nodup_feedsOf_repFold {sid : StreamId} (l : List (IdxStr × CoreId)) :
    ∀ {w : World}, (∀ t, (feedsOf w t).Nodup) →
      ∀ t, (feedsOf (repFold sid l w) t).Nodup := by
  induction l with
  | nil => intro w h; exact h
  | cons a r ih =>
    intro w h
    rw [repFold_cons]
    exact ih (fun t => nodup_feedsOf_replicateCore t (h t))

theorem repFold_attach {c : CoreId} {i : IdxStr} {sid : StreamId}
    (l : List (IdxStr × CoreId)) :
    ∀ {w : World}, (i, c) ∈ l → statusOf w c = some .ready →
      sid < w.streamTab.length → c ∈ feedsOf (repFold sid l w) sid := by
  induction l with
  | nil => intro w h; simp at h
  | cons a r ih =>
    intro w hmem hr hlen
    rw [repFold_cons]
    rcases List.mem_cons.mp hmem with h1 | h1
    · have hc : a.2 = c := (congrArg Prod.snd h1).symm
      rw [hc]
      exact mem_feedsOf_repFold r (replicateCore_attach hr hlen)
    · have hfr := frame_fields (replicateCore_frame a.2 sid w)
      refine ih h1 ?_ ?_
      · rw [statusOf_replicateCore]; exact hr
      · rw [hfr.2.2.2.2.2.2.2.2.2]; exact hlen

theorem repFold_pendingAttach {sid : StreamId} (l : List (IdxStr × CoreId)) :
    ∀ {w : World}, (∀ p ∈ l, statusOf w p.2 ≠ some .pending) →
      (repFold sid l w).pendingAttach = w.pendingAttach := by
  induction l with
  | nil => intro w _; rfl
  | cons a r ih =>
    intro w h
    rw [repFold_cons]
    rw [ih (fun p hp => by
      rw [statusOf_replicateCore]
      exact h p (List.mem_cons_of_mem _ hp))]
    exact replicateCore_pendingAttach (h a (List.mem_cons_self _ _))

/-! ## `get` characterization -/

/-- The store after `_optsToIndex` possibly consumed the fresh keypair. -/
def bumpKey (o : CoreOpts) (w : World) : World :=
  if (optsToIndex w.keyGen w.keyGen o).generated then { w with keyGen := w.keyGen + 1 }
  else w

/-- The record of the core handle `get` creates on a registry miss. -/
def newCoreRec (o : CoreOpts) (w : World) : CoreRec :=
  let r := optsToIndex w.keyGen w.keyGen o
  { key := r.key
    secretKey := o.secretKey.orElse (fun _ => r.secretKey)
    dk := (r.key.map discoveryKey).orElse (fun _ => o.discoveryKey.map datDecode)
    discoveryOnly := o.discoveryKey.isSome
    status := .pending }

theorem get_eq (o : CoreOpts) (w : World) :
    get o w =
      (match mapGet (optsToIndex w.keyGen w.keyGen o).idx w.cores with
       | some existing => (injectIntoReplicationStreams existing (bumpKey o w), existing)
       | none =>
         ({ bumpKey o w with coreTab := w.coreTab ++ [newCoreRec o w] },
          w.coreTab.length)) := by
  by_cases hg : (optsToIndex w.keyGen w.keyGen o).generated = true
  · simp only [get, bumpKey, newCoreRec, hg, if_true]
  · simp only [Bool.not_eq_true] at hg
    simp only [get, bumpKey, newCoreRec, hg, Bool.false_eq_true, if_false]

theorem get_hit {o : CoreOpts} {w : World} {c : CoreId}
    (hm : mapGet (optsToIndex w.keyGen w.keyGen o).idx w.cores = some c) :
    get o w = (injectIntoReplicationStreams c (bumpKey o w), c) := by
  rw [get_eq, hm]

theorem get_miss {o : CoreOpts} {w : World}
    (hm : mapGet (optsToIndex w.keyGen w.keyGen o).idx w.cores = none) :
    get o w = ({ bumpKey o w with coreTab := w.coreTab ++ [newCoreRec o w] },
      w.coreTab.length) := by
  rw [get_eq, hm]

theorem bumpKey_fields (o : CoreOpts) (w : World) :
    (bumpKey o w).storeId = w.storeId ∧ (bumpKey o w).coreTab = w.coreTab ∧
    (bumpKey o w).streamTab = w.streamTab ∧ (bumpKey o w).cores = w.cores ∧
    (bumpKey o w).replicationStreams = w.replicationStreams ∧
    (bumpKey o w).defaultCore = w.defaultCore ∧
    (bumpKey o w).pendingAttach = w.pendingAttach ∧
    (bumpKey o w).pendingClose = w.pendingClose ∧
    (bumpKey o w).closeCtx = w.closeCtx ∧ (bumpKey o w).cbLog = w.cbLog := by
  unfold bumpKey
  split <;> exact ⟨rfl, rfl, rfl, rfl, rfl, rfl, rfl, rfl, rfl, rfl⟩

theorem statusOf_bumpKey (o : CoreOpts) (w : World) (x : CoreId) :
    statusOf (bumpKey o w) x = statusOf w x :=
  statusOf_congr x (bumpKey_fields o w).2.1

theorem feedsOf_bumpKey (o : CoreOpts) (w : World) (t : StreamId) :
    feedsOf (bumpKey o w) t = feedsOf w t :=
  feedsOf_congr t (bumpKey_fields o w).2.2.1

/-- Fields of the store that `get` never changes: the registry map, the
session set, the default slot, the close bookkeeping. -/
theorem get_fields (o : CoreOpts) (w : World) :
    (get o w).1.cores = w.cores ∧
    (get o w).1.replicationStreams = w.replicationStreams ∧
    (get o w).1.defaultCore = w.defaultCore ∧
    (get o w).1.pendingClose = w.pendingClose ∧
    (get o w).1.closeCtx = w.closeCtx ∧
    (get o w).1.cbLog = w.cbLog ∧
    (get o w).1.storeId = w.storeId ∧
    (get o w).1.streamTab.length = w.streamTab.length := by
  cases hm : mapGet (optsToIndex w.keyGen w.keyGen o).idx w.cores with
  | some c =>
    rw [get_hit hm]
    dsimp only
    rw [injectIntoReplicationStreams_eq]
    have hf := frame_fields (injFold_frame c (bumpKey o w).replicationStreams (bumpKey o w))
    have hb := bumpKey_fields o w
    refine ⟨?_, ?_, ?_, ?_, ?_, ?_, ?_, ?_⟩
    · rw [hf.2.2.1, hb.2.2.2.1]
    · rw [hf.2.2.2.1, hb.2.2.2.2.1]
    · rw [hf.2.2.2.2.1, hb.2.2.2.2.2.1]
    · rw [hf.2.2.2.2.2.1, hb.2.2.2.2.2.2.2.1]
    · rw [hf.2.2.2.2.2.2.1, hb.2.2.2.2.2.2.2.2.1]
    · rw [hf.2.2.2.2.2.2.2.1, hb.2.2.2.2.2.2.2.2.2]
    · rw [hf.1, hb.1]
    · rw [hf.2.2.2.2.2.2.2.2.2]
      exact congrArg List.length hb.2.2.1
  | none =>
    rw [get_miss hm]
    dsimp only
    have hb := bumpKey_fields o w
    exact ⟨hb.2.2.2.1, hb.2.2.2.2.1, hb.2.2.2.2.2.1, hb.2.2.2.2.2.2.2.1,
      hb.2.2.2.2.2.2.2.2.1, hb.2.2.2.2.2.2.2.2.2, hb.1,
      congrArg List.length hb.2.2.1⟩

theorem get_coreTab (o : CoreOpts) (w : World) :
    (get o w).1.coreTab = w.coreTab ∨
    (get o w).1.coreTab = w.coreTab ++ [newCoreRec o w] := by
  cases hm : mapGet (optsToIndex w.keyGen w.keyGen o).idx w.cores with
  | some c =>
    left
    rw [get_hit hm]
    dsimp only
    rw [injectIntoReplicationStreams_eq]
    rw [(frame_fields (injFold_frame _ _ _)).2.1, (bumpKey_fields o w).2.1]
  | none =>
    right
    rw [get_miss hm]

theorem statusOf_get_old (o : CoreOpts) (w : World) {x : CoreId}
    (hx : x < w.coreTab.length) : statusOf (get o w).1 x = statusOf w x := by
  rcases get_coreTab o w with h | h
  · unfold statusOf; rw [h]
  · unfold statusOf; rw [h, List.getElem?_append]
    simp [hx]

theorem feedsOf_get (o : CoreOpts) (w : World) (t : StreamId) :
    feedsOf (get o w).1 t = feedsOf w t ∨
    ∃ c, mapGet (optsToIndex w.keyGen w.keyGen o).idx w.cores = some c ∧
      feedsOf (get o w).1 t = feedsOf (injectIntoReplicationStreams c (bumpKey o w)) t := by
  cases hm : mapGet (optsToIndex w.keyGen w.keyGen o).idx w.cores with
  | some c =>
    right
    refine ⟨c, rfl, ?_⟩
    rw [get_hit hm]
  | none =>
    left
    rw [get_miss hm]
    unfold feedsOf
    dsimp only
    rw [(bumpKey_fields o w).2.2.1]

theorem mem_feedsOf_get (o : CoreOpts) (w : World) {x : CoreId} {t : StreamId}
    (h : x ∈ feedsOf w t) : x ∈ feedsOf (get o w).1 t := by
  rcases feedsOf_get o w t with he | ⟨c, _, he⟩ <;> rw [he]
  · exact h
  · rw [injectIntoReplicationStreams_eq]
    exact mem_feedsOf_injFold _ ((feedsOf_bumpKey o w t).symm ▸ h)

theorem mem_feedsOf_get_elim (o : CoreOpts) (w : World) {x : CoreId} {t : StreamId}
    (h : x ∈ feedsOf (get o w).1 t) :
    x ∈ feedsOf w t ∨ ∃ i, (i, x) ∈ w.cores := by
  rcases feedsOf_get o w t with he | ⟨c, hm, he⟩ <;> rw [he] at h
  · exact Or.inl h
  · rw [injectIntoReplicationStreams_eq] at h
    rcases mem_feedsOf_injFold_elim _ h with h1 | h1
    · rw [feedsOf_bumpKey] at h1
      exact Or.inl h1
    · subst h1
      exact Or.inr ⟨_, mapGet_eq_some_mem hm⟩

theorem nodup_feedsOf_get (o : CoreOpts) (w : World)
    (h : ∀ t, (feedsOf w t).Nodup) : ∀ t, (feedsOf (get o w).1 t).Nodup := by
  intro t
  rcases feedsOf_get o w t with he | ⟨c, _, he⟩ <;> rw [he]
  · exact h t
  · rw [injectIntoReplicationStreams_eq]
    refine nodup_feedsOf_injFold _ (fun t' => ?_) t
    rw [feedsOf_bumpKey]
    exact h t'

theorem get_pendingAttach (o : CoreOpts) (w : World)
    (h : ∀ i c, (i, c) ∈ w.cores → statusOf w c ≠ some .pending) :
    (get o w).1.pendingAttach = w.pendingAttach := by
  cases hm : mapGet (optsToIndex w.keyGen w.keyGen o).idx w.cores with
  | some c =>
    rw [get_hit hm]
    dsimp only
    rw [injectIntoReplicationStreams_eq]
    have hc : statusOf (bumpKey o w) c ≠ some .pending := by
      rw [statusOf_bumpKey]
      exact h _ c (mapGet_eq_some_mem hm)
    rw [injFold_pendingAttach _ hc]
    exact (bumpKey_fields o w).2.2.2.2.2.2.1
  | none =>
    rw [get_miss hm]
    dsimp only
    exact (bumpKey_fields o w).2.2.2.2.2.2.1

/-! ## `setCore` and `deliverReady` characterization -/

theorem setCore_fields (w : World) (c : CoreId) (cr : CoreRec) :
    (setCore w c cr).streamTab = w.streamTab ∧
    (setCore w c cr).cores = w.cores ∧
    (setCore w c cr).replicationStreams = w.replicationStreams ∧
    (setCore w c cr).defaultCore = w.defaultCore ∧
    (setCore w c cr).pendingAttach = w.pendingAttach ∧
    (setCore w c cr).pendingClose = w.pendingClose ∧
    (setCore w c cr).closeCtx = w.closeCtx ∧
    (setCore w c cr).cbLog = w.cbLog ∧
    (setCore w c cr).keyGen = w.keyGen ∧
    (setCore w c cr).storeId = w.storeId ∧
    (setCore w c cr).coreTab.length = w.coreTab.length := by
  unfold setCore
  exact ⟨rfl, rfl, rfl, rfl, rfl, rfl, rfl, rfl, rfl, rfl, by simp⟩

theorem statusOf_setCore_self {w : World} {c : CoreId} (cr : CoreRec)
    (h : c < w.coreTab.length) : statusOf (setCore w c cr) c = some cr.status := by
  simp [setCore, statusOf, List.getElem?_set, h]

theorem statusOf_setCore_ne {w : World} {c x : CoreId} (cr : CoreRec)
    (h : x ≠ c) : statusOf (setCore w c cr) x = statusOf w x := by
  simp [setCore, statusOf, List.getElem?_set_ne (fun hh => h hh.symm)]

theorem feedsOf_setCore (w : World) (c : CoreId) (cr : CoreRec) (t : StreamId) :
    feedsOf (setCore w c cr) t = feedsOf w t := rfl

/-- The store state right after the `ready` handler registered the core
under its two identities, before injection into sessions. -/
def readyWorld (c : CoreId) (pk : Key) (cr : CoreRec) (w : World) : World :=
  let k := cr.key.getD pk
  let d := cr.dk.getD (discoveryKey k)
  { setCore w c { cr with key := some k, dk := some d, status := .ready } with
      cores := mapSet (.enc d) c (mapSet (.enc k) c w.cores) }

theorem readyWorld_fields (c : CoreId) (pk : Key) (cr : CoreRec) (w : World) :
    (readyWorld c pk cr w).streamTab = w.streamTab ∧
    (readyWorld c pk cr w).replicationStreams = w.replicationStreams ∧
    (readyWorld c pk cr w).defaultCore = w.defaultCore ∧
    (readyWorld c pk cr w).pendingAttach = w.pendingAttach ∧
    (readyWorld c pk cr w).pendingClose = w.pendingClose ∧
    (readyWorld c pk cr w).closeCtx = w.closeCtx ∧
    (readyWorld c pk cr w).cbLog = w.cbLog ∧
    (readyWorld c pk cr w).keyGen = w.keyGen ∧
    (readyWorld c pk cr w).storeId = w.storeId ∧
    (readyWorld c pk cr w).coreTab.length = w.coreTab.length ∧
    (readyWorld c pk cr w).cores =
      mapSet (.enc (cr.dk.getD (discoveryKey (cr.key.getD pk)))) c
        (mapSet (.enc (cr.key.getD pk)) c w.cores) := by
  unfold readyWorld setCore
  exact ⟨rfl, rfl, rfl, rfl, rfl, rfl, rfl, rfl, rfl, by simp, rfl⟩

theorem statusOf_readyWorld_self {c : CoreId} {pk : Key} {cr : CoreRec} {w : World}
    (hc : w.coreTab[c]? = some cr) :
    statusOf (readyWorld c pk cr w) c = some .ready := by
  have hlt : c < w.coreTab.length := (List.getElem?_eq_some.mp hc).1
  simp [readyWorld, setCore, statusOf, List.getElem?_set, hlt]

theorem statusOf_readyWorld_ne (c : CoreId) (pk : Key) (cr : CoreRec) (w : World)
    {x : CoreId} (hx : x ≠ c) :
    statusOf (readyWorld c pk cr w) x = statusOf w x := by
  simp [readyWorld, setCore, statusOf, List.getElem?_set_ne (fun hh => hx hh.symm)]

theorem coreTab_readyWorld_self {c : CoreId} {pk : Key} {cr : CoreRec} {w : World}
    (hc : w.coreTab[c]? = some cr) :
    (readyWorld c pk cr w).coreTab[c]? =
      some { cr with key := some (cr.key.getD pk),
                     dk := some (cr.dk.getD (discoveryKey (cr.key.getD pk))),
                     status := .ready } := by
  have hlt : c < w.coreTab.length := (List.getElem?_eq_some.mp hc).1
  simp [readyWorld, setCore, List.getElem?_set, hlt]

theorem coreTab_readyWorld_ne (c : CoreId) (pk : Key) (cr : CoreRec) (w : World)
    {x : CoreId} (hx : x ≠ c) :
    (readyWorld c pk cr w).coreTab[x]? = w.coreTab[x]? := by
  simp [readyWorld, setCore, List.getElem?_set_ne (fun hh => hx hh.symm)]

theorem feedsOf_readyWorld (c : CoreId) (pk : Key) (cr : CoreRec) (w : World)
    (t : StreamId) : feedsOf (readyWorld c pk cr w) t = feedsOf w t := rfl

/-- Draining the queued `core.ready` callbacks of a core is the identity
when no callback is queued. -/
theorem drain_eq (c : CoreId) (v : World) (h : v.pendingAttach = []) :
    ((v.pendingAttach.filter (fun p => p.1 == c)).foldl
      (fun acc p => replicateCore c p.2 acc)
      { v with pendingAttach := v.pendingAttach.filter (fun p => p.1 != c) }) = v := by
  cases v with
  | mk sid ct st co rs dc pa pc cc cb kg =>
    simp only at h
    subst h
    simp

/-- With no queued `core.ready` callbacks (an invariant of every reachable
store), the delivery of `ready` is exactly: register, then inject into all
sessions. -/
theorem deliverReady_eq {c : CoreId} {pk : Key} {cr : CoreRec} {w : World}
    (hc : w.coreTab[c]? = some cr) (hp : cr.status = .pending)
    (hpa : w.pendingAttach = []) :
    deliverReady c pk w = injectIntoReplicationStreams c (readyWorld c pk cr w) := by
  have hready : statusOf (readyWorld c pk cr w) c = some .ready :=
    statusOf_readyWorld_self hc
  have hpa2 : (injectIntoReplicationStreams c (readyWorld c pk cr w)).pendingAttach = [] := by
    rw [injectIntoReplicationStreams_eq,
      injFold_pendingAttach _ (by rw [hready]; simp),
      (readyWorld_fields c pk cr w).2.2.2.1, hpa]
  simp only [deliverReady, hc, hp, if_pos]
  exact drain_eq c _ hpa2

/-- Delivery of `error` on a pending core only flips its state. -/
theorem deliverError_eq {c : CoreId} {w : World} {cr : CoreRec}
    (hc : w.coreTab[c]? = some cr) (hp : cr.status = .pending) :
    deliverError c w = setCore w c { cr with status := .errored } := by
  simp only [deliverError, hc, hp, if_pos]

/-! ## `default`, `replicate`, `onclose`, `close`, `coreCloseDone` lemmas -/

theorem getDefault_some {w : World} {c : CoreId} (o : CoreOpts)
    (h : w.defaultCore = some c) : getDefault o w = (w, c) := by
  simp only [getDefault, h]

/-- The request as `default` forwards it to `get` (src/index.js:77). -/
def markDefault (o : CoreOpts) : CoreOpts :=
  if o.keyPair.isNone && o.key.isNone then { o with default := true } else o

theorem getDefault_none {w : World} (o : CoreOpts) (h : w.defaultCore = none) :
    getDefault o w =
      ({ (get (markDefault o) w).1 with defaultCore := some (get (markDefault o) w).2 },
       (get (markDefault o) w).2) := by
  simp only [getDefault, markDefault, h]

theorem replicate_error {w : World} {ro : ReplOpts}
    (h : w.defaultCore = none) (he : ro.encrypt = true) :
    replicate ro w = .error () := by
  simp [replicate, h, he]

/-- The store with the freshly created stream appended; the stream starts
with the default core attached when one exists. -/
def streamInit (w : World) : World :=
  { w with streamTab := w.streamTab ++
      [{ feeds := match w.defaultCore with | some dc => [dc] | none => [],
         destroyCount := 0, closedFlag := false }] }

theorem replicate_ok {w : World} {ro : ReplOpts}
    (h : (w.defaultCore.isNone && ro.encrypt) = false) :
    replicate ro w = .ok
      ({ repFold w.streamTab.length w.cores (streamInit w) with
          replicationStreams :=
            (repFold w.streamTab.length w.cores (streamInit w)).replicationStreams ++
              [w.streamTab.length] },
        w.streamTab.length) := by
  simp only [replicate, streamInit, repFold, h, Bool.false_eq_true, if_false]

theorem streamInit_fields (w : World) :
    (streamInit w).coreTab = w.coreTab ∧
    (streamInit w).cores = w.cores ∧
    (streamInit w).replicationStreams = w.replicationStreams ∧
    (streamInit w).defaultCore = w.defaultCore ∧
    (streamInit w).pendingAttach = w.pendingAttach ∧
    (streamInit w).pendingClose = w.pendingClose ∧
    (streamInit w).closeCtx = w.closeCtx ∧
    (streamInit w).cbLog = w.cbLog ∧
    (streamInit w).keyGen = w.keyGen ∧
    (streamInit w).storeId = w.storeId ∧
    (streamInit w).streamTab.length = w.streamTab.length + 1 := by
  unfold streamInit
  exact ⟨rfl, rfl, rfl, rfl, rfl, rfl, rfl, rfl, rfl, rfl, by simp⟩

theorem statusOf_streamInit (w : World) (x : CoreId) :
    statusOf (streamInit w) x = statusOf w x := rfl

theorem feedsOf_streamInit_old (w : World) {t : StreamId}
    (ht : t < w.streamTab.length) : feedsOf (streamInit w) t = feedsOf w t := by
  unfold feedsOf streamInit
  rw [List.getElem?_append]
  simp [ht]

theorem feedsOf_streamInit_new (w : World) :
    feedsOf (streamInit w) w.streamTab.length =
      (match w.defaultCore with | some dc => [dc] | none => []) := by
  unfold feedsOf streamInit
  simp only [List.getElem?_concat_length]
  rfl

theorem feedsOf_streamInit_over (w : World) {t : StreamId}
    (ht : w.streamTab.length + 1 ≤ t) : feedsOf (streamInit w) t = [] := by
  unfold feedsOf streamInit
  rw [List.getElem?_eq_none (by simpa using ht)]
  rfl

theorem onclose_noop_none {w : World} {s : StreamId}
    (h : w.streamTab[s]? = none) : onclose s w = w := by
  simp only [onclose, h]

theorem onclose_noop_flag {w : World} {s : StreamId} {st : StreamRec}
    (h : w.streamTab[s]? = some st) (hf : st.closedFlag = true) : onclose s w = w := by
  simp only [onclose, h, hf, if_pos]

theorem onclose_act {w : World} {s : StreamId} {st : StreamRec}
    (h : w.streamTab[s]? = some st) (hf : st.closedFlag = false) :
    onclose s w =
      setStream { w with replicationStreams := spliceRemove s w.replicationStreams } s
        { st with closedFlag := true } := by
  simp only [onclose, h, hf, Bool.false_eq_true, if_false]

theorem onclose_idem (s : StreamId) (w : World) :
    onclose s (onclose s w) = onclose s w := by
  cases hst : w.streamTab[s]? with
  | none => rw [onclose_noop_none hst, onclose_noop_none hst]
  | some st =>
    by_cases hf : st.closedFlag = true
    · rw [onclose_noop_flag hst hf, onclose_noop_flag hst hf]
    · have hf' : st.closedFlag = false := by
        cases hb : st.closedFlag
        · rfl
        · exact absurd hb hf
      rw [onclose_act hst hf']
      have hlt : s < w.streamTab.length := (List.getElem?_eq_some.mp hst).1
      have hget : (setStream
          { w with replicationStreams := spliceRemove s w.replicationStreams } s
          { st with closedFlag := true }).streamTab[s]? =
          some { st with closedFlag := true } := by
        simp [setStream, List.getElem?_set, hlt]
      exact onclose_noop_flag hget rfl

theorem onclose_fields (s : StreamId) (w : World) :
    (onclose s w).coreTab = w.coreTab ∧
    (onclose s w).cores = w.cores ∧
    (onclose s w).defaultCore = w.defaultCore ∧
    (onclose s w).pendingAttach = w.pendingAttach ∧
    (onclose s w).pendingClose = w.pendingClose ∧
    (onclose s w).closeCtx = w.closeCtx ∧
    (onclose s w).cbLog = w.cbLog ∧
    (onclose s w).keyGen = w.keyGen ∧
    (onclose s w).storeId = w.storeId ∧
    (onclose s w).streamTab.length = w.streamTab.length ∧
    (∀ t, feedsOf (onclose s w) t = feedsOf w t) ∧
    ((onclose s w).replicationStreams = w.replicationStreams ∨
      (onclose s w).replicationStreams = spliceRemove s w.replicationStreams) := by
  cases hst : w.streamTab[s]? with
  | none =>
    rw [onclose_noop_none hst]
    exact ⟨rfl, rfl, rfl, rfl, rfl, rfl, rfl, rfl, rfl, rfl, fun t => rfl, Or.inl rfl⟩
  | some st =>
    by_cases hf : st.closedFlag = true
    · rw [onclose_noop_flag hst hf]
      exact ⟨rfl, rfl, rfl, rfl, rfl, rfl, rfl, rfl, rfl, rfl, fun t => rfl, Or.inl rfl⟩
    · have hf' : st.closedFlag = false := by
        cases hb : st.closedFlag
        · rfl
        · exact absurd hb hf
      rw [onclose_act hst hf']
      have hlt : s < w.streamTab.length := (List.getElem?_eq_some.mp hst).1
      refine ⟨rfl, rfl, rfl, rfl, rfl, rfl, rfl, rfl, rfl, by simp [setStream], ?_, Or.inr rfl⟩
      intro t
      by_cases ht : t = s
      · subst ht
        rw [show feedsOf w t = st.feeds from feedsOf_eq hst]
        have : ({ w with replicationStreams := spliceRemove t w.replicationStreams } :
            World).streamTab.length = w.streamTab.length := rfl
        rw [feedsOf_setStream_self _ (by rw [this]; exact hlt)]
      · unfold feedsOf setStream
        simp [List.getElem?_set_ne (fun hh => ht hh.symm)]

theorem mem_spliceRemove {x s : StreamId} {l : List StreamId}
    (h : x ∈ spliceRemove s l) : x ∈ l := by
  unfold spliceRemove at h
  by_cases hm : s ∈ l
  · rw [if_pos hm] at h
    exact List.mem_of_mem_erase h
  · rw [if_neg hm] at h
    exact List.dropLast_subset l h

/-- The destroy loop of `close` (src/index.js:178-180). -/
def destFold (l : List StreamId) (w : World) : World :=
  l.foldl (fun acc s =>
    match acc.streamTab[s]? with
    | some st => setStream acc s { st with destroyCount := st.destroyCount + 1 }
    | none => acc) w

theorem destStep_fields (w : World) (s : StreamId) :
    ((match w.streamTab[s]? with
      | some st => setStream w s { st with destroyCount := st.destroyCount + 1 }
      | none => w) : World).coreTab = w.coreTab ∧
    ((match w.streamTab[s]? with
      | some st => setStream w s { st with destroyCount := st.destroyCount + 1 }
      | none => w) : World).cores = w.cores ∧
    ((match w.streamTab[s]? with
      | some st => setStream w s { st with destroyCount := st.destroyCount + 1 }
      | none => w) : World).replicationStreams = w.replicationStreams ∧
    ((match w.streamTab[s]? with
      | some st => setStream w s { st with destroyCount := st.destroyCount + 1 }
      | none => w) : World).defaultCore = w.defaultCore ∧
    ((match w.streamTab[s]? with
      | some st => setStream w s { st with destroyCount := st.destroyCount + 1 }
      | none => w) : World).pendingAttach = w.pendingAttach ∧
    ((match w.streamTab[s]? with
      | some st => setStream w s { st with destroyCount := st.destroyCount + 1 }
      | none => w) : World).pendingClose = w.pendingClose ∧
    ((match w.streamTab[s]? with
      | some st => setStream w s { st with destroyCount := st.destroyCount + 1 }
      | none => w) : World).closeCtx = w.closeCtx ∧
    ((match w.streamTab[s]? with
      | some st => setStream w s { st with destroyCount := st.destroyCount + 1 }
      | none => w) : World).cbLog = w.cbLog ∧
    ((match w.streamTab[s]? with
      | some st => setStream w s { st with destroyCount := st.destroyCount + 1 }
      | none => w) : World).keyGen = w.keyGen ∧
    ((match w.streamTab[s]? with
      | some st => setStream w s { st with destroyCount := st.destroyCount + 1 }
      | none => w) : World).storeId = w.storeId ∧
    ((match w.streamTab[s]? with
      | some st => setStream w s { st with destroyCount := st.destroyCount + 1 }
      | none => w) : World).streamTab.length = w.streamTab.length ∧
    (∀ t, feedsOf ((match w.streamTab[s]? with
      | some st => setStream w s { st with destroyCount := st.destroyCount + 1 }
      | none => w) : World) t = feedsOf w t) := by
  cases hst : w.streamTab[s]? with
  | none => exact ⟨rfl, rfl, rfl, rfl, rfl, rfl, rfl, rfl, rfl, rfl, rfl, fun t => rfl⟩
  | some st =>
    have hlt : s < w.streamTab.length := (List.getElem?_eq_some.mp hst).1
    refine ⟨rfl, rfl, rfl, rfl, rfl, rfl, rfl, rfl, rfl, rfl, by simp [setStream], ?_⟩
    intro t
    by_cases ht : t = s
    · subst ht
      rw [feedsOf_eq hst, feedsOf_setStream_self _ hlt]
    · unfold feedsOf setStream
      simp [List.getElem?_set_ne (fun hh => ht hh.symm)]

theorem destFold_fields (l : List StreamId) :
    ∀ w : World,
    (destFold l w).coreTab = w.coreTab ∧
    (destFold l w).cores = w.cores ∧
    (destFold l w).replicationStreams = w.replicationStreams ∧
    (destFold l w).defaultCore = w.defaultCore ∧
    (destFold l w).pendingAttach = w.pendingAttach ∧
    (destFold l w).pendingClose = w.pendingClose ∧
    (destFold l w).closeCtx = w.closeCtx ∧
    (destFold l w).cbLog = w.cbLog ∧
    (destFold l w).keyGen = w.keyGen ∧
    (destFold l w).storeId = w.storeId ∧
    (destFold l w).streamTab.length = w.streamTab.length ∧
    (∀ t, feedsOf (destFold l w) t = feedsOf w t) := by
  induction l with
  | nil =>
    intro w
    exact ⟨rfl, rfl, rfl, rfl, rfl, rfl, rfl, rfl, rfl, rfl, rfl, fun t => rfl⟩
  | cons a r ih =>
    intro w
    have hstep := destStep_fields w a
    have hrec := ih (match w.streamTab[a]? with
      | some st => setStream w a { st with destroyCount := st.destroyCount + 1 }
      | none => w)
    have hfold : destFold (a :: r) w = destFold r (match w.streamTab[a]? with
      | some st => setStream w a { st with destroyCount := st.destroyCount + 1 }
      | none => w) := by
      simp only [destFold, List.foldl_cons]
    rw [hfold]
    refine ⟨hrec.1.trans hstep.1, hrec.2.1.trans hstep.2.1,
      hrec.2.2.1.trans hstep.2.2.1, hrec.2.2.2.1.trans hstep.2.2.2.1,
      hrec.2.2.2.2.1.trans hstep.2.2.2.2.1, hrec.2.2.2.2.2.1.trans hstep.2.2.2.2.2.1,
      hrec.2.2.2.2.2.2.1.trans hstep.2.2.2.2.2.2.1,
      hrec.2.2.2.2.2.2.2.1.trans hstep.2.2.2.2.2.2.2.1,
      hrec.2.2.2.2.2.2.2.2.1.trans hstep.2.2.2.2.2.2.2.2.1,
      hrec.2.2.2.2.2.2.2.2.2.1.trans hstep.2.2.2.2.2.2.2.2.2.1,
      hrec.2.2.2.2.2.2.2.2.2.2.1.trans hstep.2.2.2.2.2.2.2.2.2.2.1,
      fun t => (hrec.2.2.2.2.2.2.2.2.2.2.2 t).trans (hstep.2.2.2.2.2.2.2.2.2.2.2 t)⟩

theorem statusOf_destFold (l : List StreamId) (w : World) (x : CoreId) :
    statusOf (destFold l w) x = statusOf w x :=
  statusOf_congr x (destFold_fields l w).1

theorem close_eq (w : World) :
    close w = { destFold w.replicationStreams w with
      pendingClose := (destFold w.replicationStreams w).pendingClose ++
        (((destFold w.replicationStreams w).cores.map (·.2)).filter
          (fun c => decide (statusOf (destFold w.replicationStreams w) c ≠ some .closed))),
      closeCtx := some (w.cores.length : Int) } := rfl

theorem close_pendingClose (w : World) :
    (close w).pendingClose = w.pendingClose ++
      ((w.cores.map (·.2)).filter (fun c => decide (statusOf w c ≠ some .closed))) := by
  have hd := destFold_fields w.replicationStreams w
  rw [close_eq]
  show (destFold w.replicationStreams w).pendingClose ++ _ = _
  rw [hd.2.2.2.2.2.1, hd.2.1]
  refine congrArg (fun z => w.pendingClose ++ z) ?_
  refine List.filter_congr ?_
  intro c _
  rw [statusOf_destFold]

theorem close_fields (w : World) :
    (close w).coreTab = w.coreTab ∧
    (close w).cores = w.cores ∧
    (close w).replicationStreams = w.replicationStreams ∧
    (close w).defaultCore = w.defaultCore ∧
    (close w).pendingAttach = w.pendingAttach ∧
    (close w).cbLog = w.cbLog ∧
    (close w).keyGen = w.keyGen ∧
    (close w).storeId = w.storeId ∧
    (close w).streamTab.length = w.streamTab.length ∧
    (close w).closeCtx = some (w.cores.length : Int) ∧
    (close w).pendingClose = w.pendingClose ++
      ((w.cores.map (·.2)).filter (fun c => decide (statusOf w c ≠ some .closed))) ∧
    (∀ t, feedsOf (close w) t = feedsOf w t) ∧
    (∀ x, statusOf (close w) x = statusOf w x) := by
  have hd := destFold_fields w.replicationStreams w
  have hpc := close_pendingClose w
  rw [close_eq] at *
  refine ⟨hd.1, hd.2.1, hd.2.2.1, hd.2.2.2.1, hd.2.2.2.2.1, hd.2.2.2.2.2.2.2.1,
    hd.2.2.2.2.2.2.2.2.1, hd.2.2.2.2.2.2.2.2.2.1, hd.2.2.2.2.2.2.2.2.2.2.1, rfl, hpc,
    ?_, ?_⟩
  · intro t
    exact hd.2.2.2.2.2.2.2.2.2.2.2 t
  · intro x
    exact statusOf_congr x hd.1

theorem reset_fields (e : Option Nat) (w : World) :
    (reset e w).coreTab = w.coreTab ∧
    (reset e w).streamTab = w.streamTab ∧
    (reset e w).defaultCore = w.defaultCore ∧
    (reset e w).pendingAttach = w.pendingAttach ∧
    (reset e w).pendingClose = w.pendingClose ∧
    (reset e w).closeCtx = w.closeCtx ∧
    (reset e w).keyGen = w.keyGen ∧
    (reset e w).storeId = w.storeId ∧
    (reset e w).cores = [] ∧
    (reset e w).replicationStreams = [] ∧
    (reset e w).cbLog = w.cbLog ++ [e] := by
  unfold reset
  exact ⟨rfl, rfl, rfl, rfl, rfl, rfl, rfl, rfl, rfl, rfl, rfl⟩

/-- The intermediate state of `coreCloseDone` after the pending entry is
consumed and the core has finished closing, before `onclose` runs. -/
def ccdMid (c : CoreId) (e : Option Nat) (w : World) : World :=
  let w1 := { w with pendingClose := w.pendingClose.erase c }
  if e.isNone then
    match w1.coreTab[c]? with
    | some cr => setCore w1 c { cr with status := .closed }
    | none => w1
  else w1

theorem coreCloseDone_eq (c : CoreId) (e : Option Nat) (w : World) :
    coreCloseDone c e w =
      (match (ccdMid c e w).closeCtx with
       | none => ccdMid c e w
       | some rem =>
         match e with
         | some err => reset (some err) (ccdMid c e w)
         | none =>
           if rem - 1 = 0 then reset none { ccdMid c e w with closeCtx := some (rem - 1) }
           else { ccdMid c e w with closeCtx := some (rem - 1) }) := rfl

theorem ccdMid_fields (c : CoreId) (e : Option Nat) (w : World) :
    (ccdMid c e w).streamTab = w.streamTab ∧
    (ccdMid c e w).cores = w.cores ∧
    (ccdMid c e w).replicationStreams = w.replicationStreams ∧
    (ccdMid c e w).defaultCore = w.defaultCore ∧
    (ccdMid c e w).pendingAttach = w.pendingAttach ∧
    (ccdMid c e w).cbLog = w.cbLog ∧
    (ccdMid c e w).keyGen = w.keyGen ∧
    (ccdMid c e w).storeId = w.storeId ∧
    (ccdMid c e w).closeCtx = w.closeCtx ∧
    (ccdMid c e w).coreTab.length = w.coreTab.length ∧
    (ccdMid c e w).pendingClose = w.pendingClose.erase c ∧
    (∀ x, statusOf (ccdMid c e w) x = statusOf w x ∨
      (x = c ∧ statusOf (ccdMid c e w) x = some .closed)) ∧
    (∀ (x : CoreId) (cr' : CoreRec), (ccdMid c e w).coreTab[x]? = some cr' →
      ∃ cr0, w.coreTab[x]? = some cr0 ∧ cr'.key = cr0.key ∧ cr'.dk = cr0.dk ∧
        cr'.discoveryOnly = cr0.discoveryOnly) := by
  unfold ccdMid
  cases e with
  | some err =>
    exact ⟨rfl, rfl, rfl, rfl, rfl, rfl, rfl, rfl, rfl, rfl, rfl, fun x => Or.inl rfl,
      fun x cr' h => ⟨cr', h, rfl, rfl, rfl⟩⟩
  | none =>
    simp only [Option.isNone_none, if_true]
    cases hct : ({ w with pendingClose := w.pendingClose.erase c } : World).coreTab[c]? with
    | none =>
      exact ⟨rfl, rfl, rfl, rfl, rfl, rfl, rfl, rfl, rfl, rfl, rfl, fun x => Or.inl rfl,
        fun x cr' h => ⟨cr', h, rfl, rfl, rfl⟩⟩
    | some cr =>
      have hlt : c < w.coreTab.length := (List.getElem?_eq_some.mp hct).1
      refine ⟨rfl, rfl, rfl, rfl, rfl, rfl, rfl, rfl, rfl, by simp [setCore], rfl, ?_, ?_⟩
      · intro x
        by_cases hx : x = c
        · subst hx
          exact Or.inr ⟨rfl, by rw [statusOf_setCore_self _ (by simpa using hlt)]⟩
        · exact Or.inl (statusOf_setCore_ne _ hx)
      · intro x cr' h
        by_cases hx : x = c
        · have h2 : (setCore ({ w with pendingClose := w.pendingClose.erase c } : World) c
              { cr with status := .closed }).coreTab[x]? =
              some { cr with status := .closed } := by
            subst hx
            simp [setCore, List.getElem?_set, hlt]
          rw [h2] at h
          have h3 : cr' = { cr with status := .closed } := (Option.some.inj h).symm
          subst h3
          refine ⟨cr, ?_, rfl, rfl, rfl⟩
          rw [hx]
          exact hct
        · refine ⟨cr', ?_, rfl, rfl, rfl⟩
          have : (setCore ({ w with pendingClose := w.pendingClose.erase c } : World) c
              { cr with status := .closed }).coreTab[x]? = w.coreTab[x]? := by
            simp [setCore, List.getElem?_set_ne (fun hh => hx hh.symm)]
          rw [← this]
          exact h

theorem coreCloseDone_spec (c : CoreId) (e : Option Nat) (w : World) :
    (coreCloseDone c e w).pendingClose = w.pendingClose.erase c ∧
    (coreCloseDone c e w).streamTab = w.streamTab ∧
    (coreCloseDone c e w).defaultCore = w.defaultCore ∧
    (coreCloseDone c e w).coreTab.length = w.coreTab.length ∧
    (coreCloseDone c e w).keyGen = w.keyGen ∧
    (coreCloseDone c e w).pendingAttach = w.pendingAttach ∧
    (coreCloseDone c e w).storeId = w.storeId ∧
    ((coreCloseDone c e w).cores = w.cores ∧
        (coreCloseDone c e w).replicationStreams = w.replicationStreams ∨
      (coreCloseDone c e w).cores = [] ∧
        (coreCloseDone c e w).replicationStreams = []) ∧
    (∀ x, statusOf (coreCloseDone c e w) x = statusOf w x ∨
      (x = c ∧ statusOf (coreCloseDone c e w) x = some .closed)) ∧
    (∀ (x : CoreId) (cr' : CoreRec), (coreCloseDone c e w).coreTab[x]? = some cr' →
      ∃ cr0, w.coreTab[x]? = some cr0 ∧ cr'.key = cr0.key ∧ cr'.dk = cr0.dk ∧
        cr'.discoveryOnly = cr0.discoveryOnly) ∧
    ((coreCloseDone c e w).closeCtx = none → w.closeCtx = none) := by
  have hm := ccdMid_fields c e w
  rw [coreCloseDone_eq]
  cases hctx : (ccdMid c e w).closeCtx with
  | none =>
    exact ⟨hm.2.2.2.2.2.2.2.2.2.2.1, hm.1, hm.2.2.2.1, hm.2.2.2.2.2.2.2.2.2.1,
      hm.2.2.2.2.2.2.1, hm.2.2.2.2.1, hm.2.2.2.2.2.2.2.1,
      Or.inl ⟨hm.2.1, hm.2.2.1⟩, hm.2.2.2.2.2.2.2.2.2.2.2.1,
      hm.2.2.2.2.2.2.2.2.2.2.2.2,
      fun _ => hctx ▸ hm.2.2.2.2.2.2.2.2.1.symm⟩
  | some rem =>
    have hwctx : w.closeCtx = some rem := hm.2.2.2.2.2.2.2.2.1 ▸ hctx
    cases e with
    | some err =>
      have hr := reset_fields (some err) (ccdMid c (some err) w)
      refine ⟨hr.2.2.2.2.1.trans hm.2.2.2.2.2.2.2.2.2.2.1, hr.2.1.trans hm.1,
        hr.2.2.1.trans hm.2.2.2.1,
        (congrArg List.length hr.1).trans hm.2.2.2.2.2.2.2.2.2.1,
        hr.2.2.2.2.2.2.1.trans hm.2.2.2.2.2.2.1,
        hr.2.2.2.1.trans hm.2.2.2.2.1,
        hr.2.2.2.2.2.2.2.1.trans hm.2.2.2.2.2.2.2.1,
        Or.inr ⟨hr.2.2.2.2.2.2.2.2.1, hr.2.2.2.2.2.2.2.2.2.1⟩, ?_, ?_, ?_⟩
      · intro x
        have hcg : statusOf (reset (some err) (ccdMid c (some err) w)) x =
            statusOf (ccdMid c (some err) w) x := statusOf_congr x hr.1
        rcases hm.2.2.2.2.2.2.2.2.2.2.2.1 x with h | ⟨hx, h⟩
        · exact Or.inl (hcg.trans h)
        · exact Or.inr ⟨hx, hcg.trans h⟩
      · intro x cr' h
        exact hm.2.2.2.2.2.2.2.2.2.2.2.2 x cr' h
      · intro hcontra
        rw [hr.2.2.2.2.2.1, hctx] at hcontra
        exact absurd hcontra (by simp)
    | none =>
      by_cases hz : rem - 1 = 0
      · simp only [hz, if_pos]
        have hr := reset_fields none
          ({ ccdMid c none w with closeCtx := some (rem - 1) } : World)
        refine ⟨hr.2.2.2.2.1.trans hm.2.2.2.2.2.2.2.2.2.2.1, hr.2.1.trans hm.1,
          hr.2.2.1.trans hm.2.2.2.1,
          (congrArg List.length hr.1).trans hm.2.2.2.2.2.2.2.2.2.1,
          hr.2.2.2.2.2.2.1.trans hm.2.2.2.2.2.2.1,
          hr.2.2.2.1.trans hm.2.2.2.2.1,
          hr.2.2.2.2.2.2.2.1.trans hm.2.2.2.2.2.2.2.1,
          Or.inr ⟨hr.2.2.2.2.2.2.2.2.1, hr.2.2.2.2.2.2.2.2.2.1⟩, ?_, ?_, ?_⟩
        · intro x
          have hcg : statusOf (reset none
              ({ ccdMid c none w with closeCtx := some (rem - 1) } : World)) x =
              statusOf (ccdMid c none w) x := statusOf_congr x hr.1
          rcases hm.2.2.2.2.2.2.2.2.2.2.2.1 x with h | ⟨hx, h⟩
          · exact Or.inl (hcg.trans h)
          · exact Or.inr ⟨hx, hcg.trans h⟩
        · intro x cr' h
          exact hm.2.2.2.2.2.2.2.2.2.2.2.2 x cr' h
        · intro hcontra
          exact absurd hcontra (by simp [reset])
      · simp only [hz, if_neg, not_false_iff]
        refine ⟨hm.2.2.2.2.2.2.2.2.2.2.1, hm.1, hm.2.2.2.1, hm.2.2.2.2.2.2.2.2.2.1,
          hm.2.2.2.2.2.2.1, hm.2.2.2.2.1, hm.2.2.2.2.2.2.2.1,
          Or.inl ⟨hm.2.1, hm.2.2.1⟩, hm.2.2.2.2.2.2.2.2.2.2.2.1,
          hm.2.2.2.2.2.2.2.2.2.2.2.2, ?_⟩
        intro hcontra
        exact absurd hcontra (by simp)

/-! ## The reachability invariant -/

theorem newCoreRec_dk {o : CoreOpts} {w : World} {k : Key}
    (h : (newCoreRec o w).key = some k) :
    (newCoreRec o w).dk = some (discoveryKey k) := by
  unfold newCoreRec at h ⊢
  dsimp only at h ⊢
  rw [h]
  rfl

theorem newCoreRec_dkShape {o : CoreOpts} {w : World}
    (h : (newCoreRec o w).key = none) (hd : (newCoreRec o w).discoveryOnly = false) :
    (newCoreRec o w).dk = none := by
  unfold newCoreRec at h hd ⊢
  dsimp only at h hd ⊢
  rw [h]
  cases hq : o.discoveryKey with
  | none => rfl
  | some v => simp [hq] at hd

theorem newCoreRec_status (o : CoreOpts) (w : World) :
    (newCoreRec o w).status = .pending := rfl

theorem get_coreTab_lookup (o : CoreOpts) (w : World) {x : CoreId} {cr' : CoreRec}
    (h : (get o w).1.coreTab[x]? = some cr') :
    w.coreTab[x]? = some cr' ∨ cr' = newCoreRec o w := by
  rcases get_coreTab o w with he | he <;> rw [he] at h
  · exact Or.inl h
  · rw [List.getElem?_append] at h
    by_cases hx : x < w.coreTab.length
    · rw [if_pos hx] at h
      exact Or.inl h
    · rw [if_neg hx] at h
      cases hn : x - w.coreTab.length with
      | zero =>
        rw [hn] at h
        exact Or.inr (Option.some.inj h).symm
      | succ n =>
        rw [hn] at h
        simp at h

theorem get_cid_lt (o : CoreOpts) (w : World)
    (hm : ∀ i c, (i, c) ∈ w.cores → c < w.coreTab.length) :
    (get o w).2 < (get o w).1.coreTab.length := by
  cases hg : mapGet (optsToIndex w.keyGen w.keyGen o).idx w.cores with
  | some c =>
    rw [get_hit hg]
    dsimp only
    rw [injectIntoReplicationStreams_eq,
      (frame_fields (injFold_frame _ _ _)).2.1, (bumpKey_fields o w).2.1]
    exact hm _ c (mapGet_eq_some_mem hg)
  | none =>
    rw [get_miss hg]
    dsimp only
    simp

/-- The invariant of reachable stores: registered cores are ready or
closed and in range, all recorded identifiers are in range, no `core.ready`
callback is ever left queued, each session's feed list is duplicate-free,
every registered ready core is attached to every active session, and each
handle's discovery key is the derivation of its public key. -/
structure Inv (w : World) : Prop where
  mapStatus : ∀ (i : IdxStr) (c : CoreId), (i, c) ∈ w.cores →
    statusOf w c = some .ready ∨ statusOf w c = some .closed
  feedsValid : ∀ (s : StreamId) (c : CoreId), c ∈ feedsOf w s → c < w.coreTab.length
  defaultValid : ∀ c : CoreId, w.defaultCore = some c → c < w.coreTab.length
  pendingCloseValid : ∀ c : CoreId, c ∈ w.pendingClose → c < w.coreTab.length
  rsValid : ∀ s : StreamId, s ∈ w.replicationStreams → s < w.streamTab.length
  pendingAttachNil : w.pendingAttach = []
  feedsNodup : ∀ s : StreamId, (feedsOf w s).Nodup
  attached : ∀ s : StreamId, s ∈ w.replicationStreams →
    ∀ (i : IdxStr) (c : CoreId), (i, c) ∈ w.cores →
    statusOf w c = some .ready → c ∈ feedsOf w s
  dkConsistent : ∀ (c : CoreId) (cr : CoreRec), w.coreTab[c]? = some cr →
    ∀ k : Key, cr.key = some k → cr.dk = some (discoveryKey k)
  dkShape : ∀ (c : CoreId) (cr : CoreRec), w.coreTab[c]? = some cr → cr.key = none →
    cr.discoveryOnly = false → cr.dk = none

theorem Inv.mapValid {w : World} (hw : Inv w) :
    ∀ i c, (i, c) ∈ w.cores → c < w.coreTab.length := by
  intro i c h
  rcases hw.mapStatus i c h with hs | hs <;> exact statusOf_lt hs

theorem Inv.mapNotPending {w : World} (hw : Inv w) :
    ∀ i c, (i, c) ∈ w.cores → statusOf w c ≠ some .pending := by
  intro i c h
  rcases hw.mapStatus i c h with hs | hs <;> rw [hs] <;> simp

theorem inv_init (sid : Nat) : Inv (init sid) := by
  refine ⟨?_, ?_, ?_, ?_, ?_, rfl, ?_, ?_, ?_, ?_⟩ <;>
    intro a <;>
    simp [init, feedsOf, statusOf]

theorem get_len_mono (o : CoreOpts) (w : World) :
    w.coreTab.length ≤ (get o w).1.coreTab.length := by
  rcases get_coreTab o w with h | h <;> rw [h] <;> simp

theorem inv_get (o : CoreOpts) {w : World} (hw : Inv w) : Inv (get o w).1 := by
  have hf := get_fields o w
  have hlen := get_len_mono o w
  refine ⟨?_, ?_, ?_, ?_, ?_, ?_, ?_, ?_, ?_, ?_⟩
  · intro i c h
    rw [hf.1] at h
    have hlt := hw.mapValid i c h
    rw [statusOf_get_old o w hlt]
    exact hw.mapStatus i c h
  · intro s c h
    rcases mem_feedsOf_get_elim o w h with h1 | ⟨i, h1⟩
    · exact lt_of_lt_of_le (hw.feedsValid s c h1) hlen
    · exact lt_of_lt_of_le (hw.mapValid i c h1) hlen
  · intro c h
    rw [hf.2.2.1] at h
    exact lt_of_lt_of_le (hw.defaultValid c h) hlen
  · intro c h
    rw [hf.2.2.2.1] at h
    exact lt_of_lt_of_le (hw.pendingCloseValid c h) hlen
  · intro s h
    rw [hf.2.1] at h
    rw [hf.2.2.2.2.2.2.2]
    exact hw.rsValid s h
  · rw [get_pendingAttach o w hw.mapNotPending]
    exact hw.pendingAttachNil
  · exact nodup_feedsOf_get o w hw.feedsNodup
  · intro s hs i c hc hr
    rw [hf.2.1] at hs
    rw [hf.1] at hc
    have hlt := hw.mapValid i c hc
    rw [statusOf_get_old o w hlt] at hr
    exact mem_feedsOf_get o w (hw.attached s hs i c hc hr)
  · intro c cr hc k hk
    rcases get_coreTab_lookup o w hc with h1 | h1
    · exact hw.dkConsistent c cr h1 k hk
    · subst h1
      exact newCoreRec_dk hk
  · intro c cr hc hk hd
    rcases get_coreTab_lookup o w hc with h1 | h1
    · exact hw.dkShape c cr h1 hk hd
    · subst h1
      exact newCoreRec_dkShape hk hd

theorem inv_getDefault (o : CoreOpts) {w : World} (hw : Inv w) :
    Inv (getDefault o w).1 := by
  cases hd : w.defaultCore with
  | some c =>
    rw [getDefault_some o hd]
    exact hw
  | none =>
    rw [getDefault_none o hd]
    have hg := inv_get (markDefault o) hw
    refine ⟨hg.mapStatus, hg.feedsValid, ?_, hg.pendingCloseValid, hg.rsValid,
      hg.pendingAttachNil, hg.feedsNodup, hg.attached, hg.dkConsistent, hg.dkShape⟩
    intro c h
    dsimp only at h
    have h2 : (get (markDefault o) w).2 = c := Option.some.inj h
    rw [← h2]
    exact get_cid_lt (markDefault o) w hw.mapValid

theorem replicate_ok_inv {w w' : World} {ro : ReplOpts} {sid : StreamId}
    (h : replicate ro w = .ok (w', sid)) :
    sid = w.streamTab.length ∧
    w' = { repFold w.streamTab.length w.cores (streamInit w) with
      replicationStreams :=
        (repFold w.streamTab.length w.cores (streamInit w)).replicationStreams ++
          [w.streamTab.length] } := by
  by_cases hcond : (w.defaultCore.isNone && ro.encrypt) = true
  · rw [show replicate ro w = .error () from by simp [replicate, hcond]] at h
    exact absurd h (by simp)
  · rw [replicate_ok (by revert hcond; cases hb : (w.defaultCore.isNone && ro.encrypt) <;>
      simp)] at h
    have h2 := Except.ok.inj h
    rw [Prod.mk.injEq] at h2
    exact ⟨h2.2.symm, h2.1.symm⟩

theorem nodup_feedsOf_streamInit {w : World} (h : ∀ t, (feedsOf w t).Nodup) :
    ∀ t, (feedsOf (streamInit w) t).Nodup := by
  intro t
  rcases lt_trichotomy t w.streamTab.length with ht | ht | ht
  · rw [feedsOf_streamInit_old w ht]
    exact h t
  · subst ht
    rw [feedsOf_streamInit_new w]
    cases w.defaultCore <;> simp
  · have hover : w.streamTab.length + 1 ≤ t := ht
    rw [feedsOf_streamInit_over w hover]
    simp

theorem inv_replicate {w w' : World} {ro : ReplOpts} {sid : StreamId} (hw : Inv w)
    (h : replicate ro w = .ok (w', sid)) : Inv w' := by
  obtain ⟨hsid, hw'⟩ := replicate_ok_inv h
  subst hsid
  subst hw'
  have hfr := frame_fields (repFold_frame w.streamTab.length w.cores (streamInit w))
  have hsif := streamInit_fields w
  set si := streamInit w with hsi
  set w2 := repFold w.streamTab.length w.cores si with hw2def
  set wf : World :=
    { w2 with replicationStreams := w2.replicationStreams ++ [w.streamTab.length] }
    with hwf
  have hA : wf.cores = w.cores := hfr.2.2.1.trans hsif.2.1
  have hB : wf.coreTab = w.coreTab := hfr.2.1.trans hsif.1
  have hC : wf.defaultCore = w.defaultCore := hfr.2.2.2.2.1.trans hsif.2.2.2.1
  have hD : wf.pendingClose = w.pendingClose := hfr.2.2.2.2.2.1.trans hsif.2.2.2.2.2.1
  have hE : wf.replicationStreams = w.replicationStreams ++ [w.streamTab.length] := by
    show w2.replicationStreams ++ [w.streamTab.length] = _
    rw [hfr.2.2.2.1.trans hsif.2.2.1]
  have hF : wf.streamTab.length = w.streamTab.length + 1 :=
    hfr.2.2.2.2.2.2.2.2.2.trans hsif.2.2.2.2.2.2.2.2.2.2
  have hG : ∀ x, statusOf wf x = statusOf w x := fun x =>
    (statusOf_repFold _ _ _ x).trans (statusOf_streamInit w x)
  have hSIlen : si.streamTab.length = w.streamTab.length + 1 :=
    hsif.2.2.2.2.2.2.2.2.2.2
  refine ⟨?_, ?_, ?_, ?_, ?_, ?_, ?_, ?_, ?_, ?_⟩
  · intro i c hm
    rw [hA] at hm
    rw [hG c]
    exact hw.mapStatus i c hm
  · intro s c hm
    have hlen : wf.coreTab.length = w.coreTab.length := congrArg List.length hB
    rw [hlen]
    rcases mem_feedsOf_repFold_elim w.cores hm with h1 | ⟨p, hp, hceq⟩
    · rcases lt_trichotomy s w.streamTab.length with ht | ht | ht
      · rw [feedsOf_streamInit_old w ht] at h1
        exact hw.feedsValid s c h1
      · subst ht
        rw [feedsOf_streamInit_new w] at h1
        cases hdc0 : w.defaultCore with
        | some dc =>
          rw [hdc0] at h1
          have : c = dc := List.mem_singleton.mp h1
          subst this
          exact hw.defaultValid c hdc0
        | none =>
          rw [hdc0] at h1
          simp at h1
      · have hover : w.streamTab.length + 1 ≤ s := ht
        rw [feedsOf_streamInit_over w hover] at h1
        simp at h1
    · subst hceq
      exact hw.mapValid p.1 p.2 hp
  · intro c hm
    rw [hC] at hm
    rw [congrArg List.length hB]
    exact hw.defaultValid c hm
  · intro c hm
    rw [hD] at hm
    rw [congrArg List.length hB]
    exact hw.pendingCloseValid c hm
  · intro s hm
    rw [hE] at hm
    rw [hF]
    rcases List.mem_append.mp hm with h1 | h1
    · exact Nat.lt_succ_of_lt (hw.rsValid s h1)
    · rw [List.mem_singleton.mp h1]
      exact Nat.lt_succ_self _
  · show w2.pendingAttach = []
    rw [repFold_pendingAttach w.cores (fun p hp => by
      rw [statusOf_streamInit]
      exact hw.mapNotPending p.1 p.2 hp)]
    exact hsif.2.2.2.2.1.trans hw.pendingAttachNil
  · intro t
    exact nodup_feedsOf_repFold w.cores (nodup_feedsOf_streamInit hw.feedsNodup) t
  · intro s hs i c hc hr
    rw [hE] at hs
    rw [hA] at hc
    have hr' : statusOf w c = some .ready := by rw [← hG c]; exact hr
    rcases List.mem_append.mp hs with h1 | h1
    · have hfw : c ∈ feedsOf w s := hw.attached s h1 i c hc hr'
      have hlt : s < w.streamTab.length := hw.rsValid s h1
      have : c ∈ feedsOf si s := by rw [feedsOf_streamInit_old w hlt]; exact hfw
      exact mem_feedsOf_repFold w.cores this
    · rw [List.mem_singleton.mp h1]
      refine repFold_attach w.cores hc ?_ ?_
      · rw [statusOf_streamInit]
        exact hr'
      · rw [hSIlen]
        exact Nat.lt_succ_self _
  · intro c cr hcr k hk
    rw [hB] at hcr
    exact hw.dkConsistent c cr hcr k hk
  · intro c cr hcr hk hdo
    rw [hB] at hcr
    exact hw.dkShape c cr hcr hk hdo

theorem inv_close {w : World} (hw : Inv w) : Inv (close w) := by
  have hf := close_fields w
  refine ⟨?_, ?_, ?_, ?_, ?_, ?_, ?_, ?_, ?_, ?_⟩
  · intro i c hm
    rw [hf.2.1] at hm
    rw [hf.2.2.2.2.2.2.2.2.2.2.2.2 c]
    exact hw.mapStatus i c hm
  · intro s c hm
    rw [hf.2.2.2.2.2.2.2.2.2.2.2.1 s] at hm
    rw [congrArg List.length hf.1]
    exact hw.feedsValid s c hm
  · intro c hm
    rw [hf.2.2.2.1] at hm
    rw [congrArg List.length hf.1]
    exact hw.defaultValid c hm
  · intro c hm
    rw [hf.2.2.2.2.2.2.2.2.2.2.1] at hm
    rw [congrArg List.length hf.1]
    rcases List.mem_append.mp hm with h1 | h1
    · exact hw.pendingCloseValid c h1
    · have h2 := List.mem_of_mem_filter h1
      rcases List.mem_map.mp h2 with ⟨p, hp, hpe⟩
      rw [← hpe]
      exact hw.mapValid p.1 p.2 hp
  · intro s hm
    rw [hf.2.2.1] at hm
    rw [hf.2.2.2.2.2.2.2.2.1]
    exact hw.rsValid s hm
  · rw [hf.2.2.2.2.1]
    exact hw.pendingAttachNil
  · intro s
    rw [hf.2.2.2.2.2.2.2.2.2.2.2.1 s]
    exact hw.feedsNodup s
  · intro s hs i c hc hr
    rw [hf.2.2.1] at hs
    rw [hf.2.1] at hc
    rw [hf.2.2.2.2.2.2.2.2.2.2.2.2 c] at hr
    rw [hf.2.2.2.2.2.2.2.2.2.2.2.1 s]
    exact hw.attached s hs i c hc hr
  · intro c cr hcr k hk
    rw [hf.1] at hcr
    exact hw.dkConsistent c cr hcr k hk
  · intro c cr hcr hk hdo
    rw [hf.1] at hcr
    exact hw.dkShape c cr hcr hk hdo

theorem inv_onclose {w : World} {s0 : StreamId} (hw : Inv w) : Inv (onclose s0 w) := by
  have hf := onclose_fields s0 w
  have hrs : ∀ s, s ∈ (onclose s0 w).replicationStreams → s ∈ w.replicationStreams := by
    intro s hm
    rcases hf.2.2.2.2.2.2.2.2.2.2.2 with he | he <;> rw [he] at hm
    · exact hm
    · exact mem_spliceRemove hm
  refine ⟨?_, ?_, ?_, ?_, ?_, ?_, ?_, ?_, ?_, ?_⟩
  · intro i c hm
    rw [hf.2.1] at hm
    rw [statusOf_congr c hf.1]
    exact hw.mapStatus i c hm
  · intro s c hm
    rw [hf.2.2.2.2.2.2.2.2.2.2.1 s] at hm
    rw [congrArg List.length hf.1]
    exact hw.feedsValid s c hm
  · intro c hm
    rw [hf.2.2.1] at hm
    rw [congrArg List.length hf.1]
    exact hw.defaultValid c hm
  · intro c hm
    rw [hf.2.2.2.2.1] at hm
    rw [congrArg List.length hf.1]
    exact hw.pendingCloseValid c hm
  · intro s hm
    rw [hf.2.2.2.2.2.2.2.2.2.1]
    exact hw.rsValid s (hrs s hm)
  · rw [hf.2.2.2.1]
    exact hw.pendingAttachNil
  · intro s
    rw [hf.2.2.2.2.2.2.2.2.2.2.1 s]
    exact hw.feedsNodup s
  · intro s hs i c hc hr
    rw [hf.2.1] at hc
    rw [statusOf_congr c hf.1] at hr
    rw [hf.2.2.2.2.2.2.2.2.2.2.1 s]
    exact hw.attached s (hrs s hs) i c hc hr
  · intro c cr hcr k hk
    rw [hf.1] at hcr
    exact hw.dkConsistent c cr hcr k hk
  · intro c cr hcr hk hdo
    rw [hf.1] at hcr
    exact hw.dkShape c cr hcr hk hdo

theorem inv_coreCloseDone {w : World} {c0 : CoreId} {e : Option Nat} (hw : Inv w) :
    Inv (coreCloseDone c0 e w) := by
  have hf := coreCloseDone_spec c0 e w
  refine ⟨?_, ?_, ?_, ?_, ?_, ?_, ?_, ?_, ?_, ?_⟩
  · intro i c hm
    rcases hf.2.2.2.2.2.2.2.1 with ⟨hcs, _⟩ | ⟨hcs, _⟩
    · rw [hcs] at hm
      rcases hf.2.2.2.2.2.2.2.2.1 c with h1 | ⟨_, h1⟩
      · rw [h1]
        exact hw.mapStatus i c hm
      · exact Or.inr h1
    · rw [hcs] at hm
      simp at hm
  · intro s c hm
    rw [feedsOf_congr s hf.2.1] at hm
    rw [hf.2.2.2.1]
    exact hw.feedsValid s c hm
  · intro c hm
    rw [hf.2.2.1] at hm
    rw [hf.2.2.2.1]
    exact hw.defaultValid c hm
  · intro c hm
    rw [hf.1] at hm
    rw [hf.2.2.2.1]
    exact hw.pendingCloseValid c (List.mem_of_mem_erase hm)
  · intro s hm
    rcases hf.2.2.2.2.2.2.2.1 with ⟨_, hrs⟩ | ⟨_, hrs⟩ <;> rw [hrs] at hm
    · rw [show (coreCloseDone c0 e w).streamTab.length = w.streamTab.length from
        congrArg List.length hf.2.1]
      exact hw.rsValid s hm
    · simp at hm
  · rw [hf.2.2.2.2.2.1]
    exact hw.pendingAttachNil
  · intro s
    rw [feedsOf_congr s hf.2.1]
    exact hw.feedsNodup s
  · intro s hs i c hc hr
    rcases hf.2.2.2.2.2.2.2.1 with ⟨hcs, hrs⟩ | ⟨hcs, _⟩
    · rw [hcs] at hc
      rw [hrs] at hs
      rw [feedsOf_congr s hf.2.1]
      rcases hf.2.2.2.2.2.2.2.2.1 c with h1 | ⟨_, h1⟩
      · rw [h1] at hr
        exact hw.attached s hs i c hc hr
      · rw [h1] at hr
        exact absurd (Option.some.inj hr) (by simp)
    · rw [hcs] at hc
      simp at hc
  · intro c cr hcr k hk
    rcases hf.2.2.2.2.2.2.2.2.2.1 c cr hcr with ⟨cr0, hcr0, hkey, hdk, _⟩
    rw [hdk]
    exact hw.dkConsistent c cr0 hcr0 k (hkey ▸ hk)
  · intro c cr hcr hk hdo
    rcases hf.2.2.2.2.2.2.2.2.2.1 c cr hcr with ⟨cr0, hcr0, hkey, hdk, hdo0⟩
    rw [hdk]
    exact hw.dkShape c cr0 hcr0 (hkey ▸ hk) (hdo0 ▸ hdo)

theorem inv_deliverError {w : World} {c0 : CoreId} {cr : CoreRec} (hw : Inv w)
    (hc : w.coreTab[c0]? = some cr) (hp : cr.status = .pending) :
    Inv (deliverError c0 w) := by
  rw [deliverError_eq hc hp]
  have hpend : statusOf w c0 = some .pending := by
    simp [statusOf, hc, hp]
  have hne : ∀ (i : IdxStr) (c : CoreId), (i, c) ∈ w.cores → c ≠ c0 := by
    intro i c hm heq
    subst heq
    exact hw.mapNotPending i c hm hpend
  have hlen : (setCore w c0 { cr with status := .errored }).coreTab.length =
      w.coreTab.length := (setCore_fields w c0 _).2.2.2.2.2.2.2.2.2.2
  have hsf := setCore_fields w c0 ({ cr with status := .errored })
  refine ⟨?_, ?_, ?_, ?_, ?_, ?_, ?_, ?_, ?_, ?_⟩
  · intro i c hm
    rw [hsf.2.1] at hm
    rw [statusOf_setCore_ne _ (hne i c hm)]
    exact hw.mapStatus i c hm
  · intro s c hm
    rw [show feedsOf (setCore w c0 { cr with status := .errored }) s = feedsOf w s from
      feedsOf_setCore w c0 _ s] at hm
    rw [hlen]
    exact hw.feedsValid s c hm
  · intro c hm
    rw [hsf.2.2.2.1] at hm
    rw [hlen]
    exact hw.defaultValid c hm
  · intro c hm
    rw [hsf.2.2.2.2.2.1] at hm
    rw [hlen]
    exact hw.pendingCloseValid c hm
  · intro s hm
    rw [hsf.2.2.1] at hm
    rw [congrArg List.length hsf.1]
    exact hw.rsValid s hm
  · rw [hsf.2.2.2.2.1]
    exact hw.pendingAttachNil
  · intro s
    rw [show feedsOf (setCore w c0 { cr with status := .errored }) s = feedsOf w s from
      feedsOf_setCore w c0 _ s]
    exact hw.feedsNodup s
  · intro s hs i c hc2 hr
    rw [hsf.2.2.1] at hs
    rw [hsf.2.1] at hc2
    rw [statusOf_setCore_ne _ (hne i c hc2)] at hr
    rw [show feedsOf (setCore w c0 { cr with status := .errored }) s = feedsOf w s from
      feedsOf_setCore w c0 _ s]
    exact hw.attached s hs i c hc2 hr
  · intro c cr2 hcr k hk
    by_cases hx : c = c0
    · subst hx
      have hlt : c < w.coreTab.length := (List.getElem?_eq_some.mp hc).1
      have : (setCore w c { cr with status := .errored }).coreTab[c]? =
          some { cr with status := .errored } := by
        simp [setCore, List.getElem?_set, hlt]
      rw [this] at hcr
      have h3 := (Option.some.inj hcr).symm
      subst h3
      exact hw.dkConsistent c cr hc k hk
    · have : (setCore w c0 { cr with status := .errored }).coreTab[c]? =
          w.coreTab[c]? := by
        simp [setCore, List.getElem?_set_ne (fun hh => hx hh.symm)]
      rw [this] at hcr
      exact hw.dkConsistent c cr2 hcr k hk
  · intro c cr2 hcr hk hdo
    by_cases hx : c = c0
    · subst hx
      have hlt : c < w.coreTab.length := (List.getElem?_eq_some.mp hc).1
      have : (setCore w c { cr with status := .errored }).coreTab[c]? =
          some { cr with status := .errored } := by
        simp [setCore, List.getElem?_set, hlt]
      rw [this] at hcr
      have h3 := (Option.some.inj hcr).symm
      subst h3
      exact hw.dkShape c cr hc hk hdo
    · have : (setCore w c0 { cr with status := .errored }).coreTab[c]? =
          w.coreTab[c]? := by
        simp [setCore, List.getElem?_set_ne (fun hh => hx hh.symm)]
      rw [this] at hcr
      exact hw.dkShape c cr2 hcr hk hdo

theorem inv_deliverReady {w : World} {c0 : CoreId} {pk : Key} {cr : CoreRec} (hw : Inv w)
    (hc : w.coreTab[c0]? = some cr) (hp : cr.status = .pending)
    (hdk : cr.discoveryOnly = true → cr.dk = some (discoveryKey pk)) :
    Inv (deliverReady c0 pk w) := by
  rw [deliverReady_eq hc hp hw.pendingAttachNil, injectIntoReplicationStreams_eq]
  have hrwf := readyWorld_fields c0 pk cr w
  have hif := frame_fields (injFold_frame c0
    (readyWorld c0 pk cr w).replicationStreams (readyWorld c0 pk cr w))
  have hpend : statusOf w c0 = some .pending := by simp [statusOf, hc, hp]
  have hne : ∀ (i : IdxStr) (c : CoreId), (i, c) ∈ w.cores → c ≠ c0 := by
    intro i c hm heq
    exact hw.mapNotPending i c hm (heq ▸ hpend)
  have hready : statusOf (readyWorld c0 pk cr w) c0 = some .ready :=
    statusOf_readyWorld_self hc
  have hstat : ∀ x, x ≠ c0 →
      statusOf (injFold c0 (readyWorld c0 pk cr w).replicationStreams
        (readyWorld c0 pk cr w)) x = statusOf w x := fun x hx =>
    (statusOf_injFold _ _ _ x).trans (statusOf_readyWorld_ne c0 pk cr w hx)
  have hstatc : statusOf (injFold c0 (readyWorld c0 pk cr w).replicationStreams
      (readyWorld c0 pk cr w)) c0 = some .ready :=
    (statusOf_injFold _ _ _ c0).trans hready
  have hcores : (injFold c0 (readyWorld c0 pk cr w).replicationStreams
      (readyWorld c0 pk cr w)).cores =
      mapSet (.enc (cr.dk.getD (discoveryKey (cr.key.getD pk)))) c0
        (mapSet (.enc (cr.key.getD pk)) c0 w.cores) :=
    hif.2.2.1.trans hrwf.2.2.2.2.2.2.2.2.2.2
  have hctlen : (injFold c0 (readyWorld c0 pk cr w).replicationStreams
      (readyWorld c0 pk cr w)).coreTab.length = w.coreTab.length :=
    (congrArg List.length hif.2.1).trans hrwf.2.2.2.2.2.2.2.2.2.1
  have hrs : (injFold c0 (readyWorld c0 pk cr w).replicationStreams
      (readyWorld c0 pk cr w)).replicationStreams = w.replicationStreams :=
    hif.2.2.2.1.trans hrwf.2.1
  have hstlen : (injFold c0 (readyWorld c0 pk cr w).replicationStreams
      (readyWorld c0 pk cr w)).streamTab.length = w.streamTab.length :=
    hif.2.2.2.2.2.2.2.2.2.trans (congrArg List.length hrwf.1)
  have hdc : (injFold c0 (readyWorld c0 pk cr w).replicationStreams
      (readyWorld c0 pk cr w)).defaultCore = w.defaultCore :=
    hif.2.2.2.2.1.trans hrwf.2.2.1
  have hpcl : (injFold c0 (readyWorld c0 pk cr w).replicationStreams
      (readyWorld c0 pk cr w)).pendingClose = w.pendingClose :=
    hif.2.2.2.2.2.1.trans hrwf.2.2.2.2.1
  have hdk2 : cr.dk.getD (discoveryKey (cr.key.getD pk)) =
      discoveryKey (cr.key.getD pk) := by
    cases hck : cr.key with
    | some k0 =>
      rw [hw.dkConsistent c0 cr hc k0 hck]
      rfl
    | none =>
      cases hdo : cr.discoveryOnly with
      | true =>
        rw [hdk hdo]
        rfl
      | false =>
        rw [hw.dkShape c0 cr hc hck hdo]
        rfl
  have hmm : ∀ (i : IdxStr) (c : CoreId),
      (i, c) ∈ (injFold c0 (readyWorld c0 pk cr w).replicationStreams
        (readyWorld c0 pk cr w)).cores →
      c = c0 ∨ ((i, c) ∈ w.cores ∧ c ≠ c0) := by
    intro i c hmem
    rw [hcores] at hmem
    rcases mem_mapSet hmem with ⟨_, hcv⟩ | hmem2
    · exact Or.inl hcv
    · rcases mem_mapSet hmem2 with ⟨_, hcv⟩ | hmem3
      · exact Or.inl hcv
      · exact Or.inr ⟨hmem3, hne i c hmem3⟩
  have hfeeds_elim : ∀ (t : StreamId) (x : CoreId),
      x ∈ feedsOf (injFold c0 (readyWorld c0 pk cr w).replicationStreams
        (readyWorld c0 pk cr w)) t →
      x ∈ feedsOf w t ∨ x = c0 := by
    intro t x hx
    rcases mem_feedsOf_injFold_elim _ hx with h1 | h1
    · exact Or.inl h1
    · exact Or.inr h1
  refine ⟨?_, ?_, ?_, ?_, ?_, ?_, ?_, ?_, ?_, ?_⟩
  · intro i c hmem
    rcases hmm i c hmem with hcv | ⟨hmem2, hneq⟩
    · subst hcv
      exact Or.inl hstatc
    · rw [hstat c hneq]
      exact hw.mapStatus i c hmem2
  · intro s c hx
    rw [hctlen]
    rcases hfeeds_elim s c hx with h1 | h1
    · exact hw.feedsValid s c h1
    · subst h1
      exact (List.getElem?_eq_some.mp hc).1
  · intro c hm
    rw [hdc] at hm
    rw [hctlen]
    exact hw.defaultValid c hm
  · intro c hm
    rw [hpcl] at hm
    rw [hctlen]
    exact hw.pendingCloseValid c hm
  · intro s hm
    rw [hrs] at hm
    rw [hstlen]
    exact hw.rsValid s hm
  · have h1 : (injFold c0 (readyWorld c0 pk cr w).replicationStreams
        (readyWorld c0 pk cr w)).pendingAttach =
        (readyWorld c0 pk cr w).pendingAttach :=
      injFold_pendingAttach _ (by rw [hready]; simp)
    rw [h1, hrwf.2.2.2.1]
    exact hw.pendingAttachNil
  · exact nodup_feedsOf_injFold _ (fun t => hw.feedsNodup t)
  · intro s hs i c hmem hr
    rcases hmm i c hmem with hcv | ⟨hmem2, hneq⟩
    · subst hcv
      refine injFold_attach _ hready ?_ (hrs ▸ hs)
      exact hw.rsValid s (hrs ▸ hs)
    · rw [hstat c hneq] at hr
      exact mem_feedsOf_injFold _ (hw.attached s (hrs ▸ hs) i c hmem2 hr)
  · intro c cr2 hcr k hk
    have hcr2 : (readyWorld c0 pk cr w).coreTab[c]? = some cr2 := hif.2.1 ▸ hcr
    by_cases hx : c = c0
    · subst hx
      rw [coreTab_readyWorld_self hc] at hcr2
      have h3 := (Option.some.inj hcr2).symm
      subst h3
      dsimp only at hk ⊢
      have hkk : cr.key.getD pk = k := Option.some.inj hk
      rw [hdk2, hkk]
    · rw [coreTab_readyWorld_ne c0 pk cr w hx] at hcr2
      exact hw.dkConsistent c cr2 hcr2 k hk
  · intro c cr2 hcr hk hdo
    have hcr2 : (readyWorld c0 pk cr w).coreTab[c]? = some cr2 := hif.2.1 ▸ hcr
    by_cases hx : c = c0
    · subst hx
      rw [coreTab_readyWorld_self hc] at hcr2
      have h3 := (Option.some.inj hcr2).symm
      subst h3
      exact absurd hk (by simp)
    · rw [coreTab_readyWorld_ne c0 pk cr w hx] at hcr2
      exact hw.dkShape c cr2 hcr2 hk hdo

theorem inv_step {w w' : World} (hw : Inv w) (hs : Step w w') : Inv w' := by
  cases hs with
  | opGet o => exact inv_get o hw
  | opDefault o => exact inv_getDefault o hw
  | opReplicate w2 ro sid h => exact inv_replicate hw h
  | opClose h => exact inv_close hw
  | evReady c pk cr hc hp hdk => exact inv_deliverReady hw hc hp hdk
  | evError c cr hc hp => exact inv_deliverError hw hc hp
  | evFeed s d hsd => exact inv_get _ hw
  | evTerm s sig hsd => exact inv_onclose hw
  | evCloseDone c e hc => exact inv_coreCloseDone hw

theorem reach_inv {w : World} (hr : Reach w) : Inv w := by
  obtain ⟨sid, hchain⟩ := hr
  induction hchain with
  | refl => exact inv_init sid
  | tail hab hbc ih => exact inv_step ih hbc

theorem reach_step {w w' : World} (hr : Reach w) (hs : Step w w') : Reach w' := by
  obtain ⟨sid, hchain⟩ := hr
  exact ⟨sid, hchain.tail hs⟩

/-! ## Unconditional frames of the event handlers -/

theorem drainFold_eq (c : CoreId) (pd : List (CoreId × StreamId)) (v : World) :
    pd.foldl (fun acc p => replicateCore c p.2 acc) v =
      injFold c (pd.map (fun p => p.2)) v := by
  rw [injFold, List.foldl_map]

theorem deliverReady_eq_raw {c : CoreId} {pk : Key} {cr : CoreRec} {w : World}
    (hc : w.coreTab[c]? = some cr) (hst : cr.status = .pending) :
    deliverReady c pk w =
      ((injectIntoReplicationStreams c (readyWorld c pk cr w)).pendingAttach.filter
        (fun p => p.1 == c)).foldl (fun acc p => replicateCore c p.2 acc)
        { injectIntoReplicationStreams c (readyWorld c pk cr w) with
          pendingAttach := (injectIntoReplicationStreams c
            (readyWorld c pk cr w)).pendingAttach.filter (fun p => p.1 != c) } := by
  simp only [deliverReady, hc, hst, if_pos]
  rfl

/-- `deliverReady` never touches the default slot or the close
bookkeeping, and can only add the just-readied core to a feed list. -/
theorem deliverReady_frame (c : CoreId) (pk : Key) (w : World) :
    (deliverReady c pk w).defaultCore = w.defaultCore ∧
    (deliverReady c pk w).pendingClose = w.pendingClose ∧
    (deliverReady c pk w).closeCtx = w.closeCtx ∧
    (deliverReady c pk w).cbLog = w.cbLog ∧
    (deliverReady c pk w).replicationStreams = w.replicationStreams ∧
    (deliverReady c pk w).coreTab.length = w.coreTab.length ∧
    (deliverReady c pk w).streamTab.length = w.streamTab.length ∧
    (∀ x, x ≠ c → statusOf (deliverReady c pk w) x = statusOf w x) ∧
    ((deliverReady c pk w).cores = w.cores ∨
      ∃ cr, w.coreTab[c]? = some cr ∧ cr.status = .pending ∧
        (deliverReady c pk w).cores =
          mapSet (.enc (cr.dk.getD (discoveryKey (cr.key.getD pk)))) c
            (mapSet (.enc (cr.key.getD pk)) c w.cores)) ∧
    (∀ (t : StreamId) (x : CoreId), x ∈ feedsOf (deliverReady c pk w) t →
      x ∈ feedsOf w t ∨ x = c) := by
  cases hc : w.coreTab[c]? with
  | none =>
    rw [show deliverReady c pk w = w from by simp only [deliverReady, hc]]
    exact ⟨rfl, rfl, rfl, rfl, rfl, rfl, rfl, fun x _ => rfl, Or.inl rfl,
      fun t x hx => Or.inl hx⟩
  | some cr =>
    by_cases hst : cr.status = .pending
    · rw [deliverReady_eq_raw hc hst, drainFold_eq]
      have hRW := readyWorld_fields c pk cr w
      have hJ1 := frame_fields (injFold_frame c
        (readyWorld c pk cr w).replicationStreams (readyWorld c pk cr w))
      have hJ2 := frame_fields (injFold_frame c
        ((((injectIntoReplicationStreams c (readyWorld c pk cr w)).pendingAttach.filter
          (fun p => p.1 == c)).map (fun p => p.2)))
        ({ injectIntoReplicationStreams c (readyWorld c pk cr w) with
           pendingAttach := (injectIntoReplicationStreams c
             (readyWorld c pk cr w)).pendingAttach.filter (fun p => p.1 != c) } : World))
      refine ⟨?_, ?_, ?_, ?_, ?_, ?_, ?_, ?_, ?_, ?_⟩
      · exact hJ2.2.2.2.2.1.trans (hJ1.2.2.2.2.1.trans hRW.2.2.1)
      · exact hJ2.2.2.2.2.2.1.trans (hJ1.2.2.2.2.2.1.trans hRW.2.2.2.2.1)
      · exact hJ2.2.2.2.2.2.2.1.trans (hJ1.2.2.2.2.2.2.1.trans hRW.2.2.2.2.2.1)
      · exact hJ2.2.2.2.2.2.2.2.1.trans (hJ1.2.2.2.2.2.2.2.1.trans hRW.2.2.2.2.2.2.1)
      · exact hJ2.2.2.2.1.trans (hJ1.2.2.2.1.trans hRW.2.1)
      · exact (congrArg List.length hJ2.2.1).trans
          ((congrArg List.length hJ1.2.1).trans hRW.2.2.2.2.2.2.2.2.2.1)
      · exact hJ2.2.2.2.2.2.2.2.2.2.trans
          (hJ1.2.2.2.2.2.2.2.2.2.trans (congrArg List.length hRW.1))
      · intro x hx
        exact (statusOf_injFold _ _ _ x).trans ((statusOf_injFold _ _ _ x).trans
          (statusOf_readyWorld_ne c pk cr w hx))
      · exact Or.inr ⟨cr, rfl, hst, hJ2.2.2.1.trans
          (hJ1.2.2.1.trans hRW.2.2.2.2.2.2.2.2.2.2)⟩
      · intro t x hx
        rcases mem_feedsOf_injFold_elim _ hx with h1 | h1
        · rcases mem_feedsOf_injFold_elim _ h1 with h2 | h2
          · exact Or.inl h2
          · exact Or.inr h2
        · exact Or.inr h1
    · rw [show deliverReady c pk w = w from by
        simp only [deliverReady, hc, hst, if_neg, not_false_iff]]
      exact ⟨rfl, rfl, rfl, rfl, rfl, rfl, rfl, fun x _ => rfl, Or.inl rfl,
        fun t x hx => Or.inl hx⟩

theorem deliverError_frame (c : CoreId) (w : World) :
    (deliverError c w).defaultCore = w.defaultCore ∧
    (deliverError c w).pendingClose = w.pendingClose ∧
    (deliverError c w).closeCtx = w.closeCtx ∧
    (deliverError c w).cbLog = w.cbLog ∧
    (deliverError c w).replicationStreams = w.replicationStreams ∧
    (deliverError c w).cores = w.cores ∧
    (deliverError c w).coreTab.length = w.coreTab.length ∧
    (∀ t, feedsOf (deliverError c w) t = feedsOf w t) ∧
    (∀ x, x ≠ c → statusOf (deliverError c w) x = statusOf w x) := by
  cases hc : w.coreTab[c]? with
  | none =>
    rw [show deliverError c w = w from by simp only [deliverError, hc]]
    exact ⟨rfl, rfl, rfl, rfl, rfl, rfl, rfl, fun t => rfl, fun x _ => rfl⟩
  | some cr =>
    by_cases hst : cr.status = .pending
    · rw [deliverError_eq hc hst]
      refine ⟨rfl, rfl, rfl, rfl, rfl, rfl, by simp [setCore], fun t => rfl, ?_⟩
      intro x hx
      exact statusOf_setCore_ne _ hx
    · rw [show deliverError c w = w from by simp only [deliverError, hc, hst, if_neg,
        not_false_iff]]
      exact ⟨rfl, rfl, rfl, rfl, rfl, rfl, rfl, fun t => rfl, fun x _ => rfl⟩

theorem getDefault_frame (o : CoreOpts) (w : World) :
    (getDefault o w).1.pendingClose = w.pendingClose ∧
    (getDefault o w).1.closeCtx = w.closeCtx ∧
    (getDefault o w).1.cbLog = w.cbLog ∧
    (getDefault o w).1.cores = w.cores ∧
    (getDefault o w).1.replicationStreams = w.replicationStreams := by
  cases hd : w.defaultCore with
  | some c =>
    rw [getDefault_some o hd]
    exact ⟨rfl, rfl, rfl, rfl, rfl⟩
  | none =>
    rw [getDefault_none o hd]
    have hg := get_fields (markDefault o) w
    exact ⟨hg.2.2.2.1, hg.2.2.2.2.1, hg.2.2.2.2.2.1, hg.1, hg.2.1⟩

theorem replicate_frame {w w' : World} {ro : ReplOpts} {sid : StreamId}
    (h : replicate ro w = .ok (w', sid)) :
    w'.pendingClose = w.pendingClose ∧
    w'.closeCtx = w.closeCtx ∧
    w'.cbLog = w.cbLog ∧
    w'.defaultCore = w.defaultCore ∧
    w'.cores = w.cores := by
  obtain ⟨hsid, hw'⟩ := replicate_ok_inv h
  subst hw'
  have hfr := frame_fields (repFold_frame w.streamTab.length w.cores (streamInit w))
  have hsif := streamInit_fields w
  exact ⟨hfr.2.2.2.2.2.1.trans hsif.2.2.2.2.2.1, hfr.2.2.2.2.2.2.1.trans hsif.2.2.2.2.2.2.1,
    hfr.2.2.2.2.2.2.2.1.trans hsif.2.2.2.2.2.2.2.1, hfr.2.2.2.2.1.trans hsif.2.2.2.1,
    hfr.2.2.1.trans hsif.2.1⟩

/-- The default slot, once set, is never modified by any step. -/
theorem defaultCore_mono {v v' : World} {c : CoreId} (hs : Step v v')
    (h : v.defaultCore = some c) : v'.defaultCore = some c := by
  cases hs with
  | opGet o => rw [(get_fields o v).2.2.1]; exact h
  | opDefault o => rw [getDefault_some o h]; exact h
  | opReplicate w2 ro sid hrep => rw [(replicate_frame hrep).2.2.2.1]; exact h
  | opClose hcl => rw [(close_fields v).2.2.2.1]; exact h
  | evReady c2 pk cr hc hp hdk => rw [(deliverReady_frame c2 pk v).1]; exact h
  | evError c2 cr hc hp => rw [(deliverError_frame c2 v).1]; exact h
  | evFeed s d hsd => rw [(get_fields _ v).2.2.1]; exact h
  | evTerm s sig hsd => exact ((onclose_fields s v).2.2.1).trans h
  | evCloseDone c2 e hc => rw [(coreCloseDone_spec c2 e v).2.2.1]; exact h

/-! ## Claim theorems -/

theorem getDefault_defaultCore (o : CoreOpts) (w : World) :
    (getDefault o w).1.defaultCore = some (getDefault o w).2 := by
  cases hd : w.defaultCore with
  | some c =>
    rw [getDefault_some o hd]
    exact hd
  | none =>
    rw [getDefault_none o hd]

/-- Modelled from the spec: the Key Indexer resolution order exactly as the
specification states it — (1) default flag set and no key/secretKey gives
the reserved default marker; (2) a name supplied with no key/secretKey is
used verbatim; (3) a supplied key is decoded and re-derived to its
discovery key, a supplied discoveryKey is decoded and used directly;
(4) otherwise the caller-supplied or a fresh keypair is used and the index
is the discovery key of its public key. -/
def specKeyIndexer (freshPub : Key) (o : CoreOpts) : IdxStr :=
  if o.default && o.key.isNone && o.secretKey.isNone then .str "default"
  else if truthy o.name && o.key.isNone && o.secretKey.isNone then .str (o.name.getD "")
  else
    match o.key with
    | some kb => .enc (discoveryKey (datDecode kb))
    | none =>
      match o.discoveryKey with
      | some db => .enc (datDecode db)
      | none =>
        match o.keyPair with
        | some kp => .enc (discoveryKey kp.1)
        | none => .enc (discoveryKey freshPub)

/-- C6: the Key Indexer resolves a request by first-match-wins order —
default marker, then verbatim name, then supplied key/discoveryKey
(decoded from text to binary if needed, and a supplied public key is
re-derived to its discovery key: a raw public key is never used as an
index), else a fresh or caller-supplied keypair whose public key's
derived discovery key becomes the index.  The source `_optsToIndex`
coincides with the specification's resolution order on every request. -/
theorem C6_key_indexer_order (fp fs : Key) (o : CoreOpts) :
    (optsToIndex fp fs o).idx = specKeyIndexer fp o ∧
    (∀ kb : BufOrStr, o.key = some kb →
      (optsToIndex fp fs o).idx = .enc (discoveryKey (datDecode kb)) ∧
      (optsToIndex fp fs o).idx ≠ .enc (datDecode kb)) := by
  constructor
  · unfold optsToIndex specKeyIndexer
    by_cases h1 : (o.default && o.key.isNone && o.secretKey.isNone) = true
    · rw [if_pos h1, if_pos h1]
    · rw [if_neg h1, if_neg h1]
      by_cases h2 : (truthy o.name && o.key.isNone && o.secretKey.isNone) = true
      · rw [if_pos h2, if_pos h2]
      · rw [if_neg h2, if_neg h2]
        cases hk : o.key with
        | some kb => simp [Option.orElse]
        | none =>
          cases hd : o.discoveryKey with
          | some db => simp [Option.orElse]
          | none =>
            cases hkp : o.keyPair <;> simp [Option.orElse]
  · intro kb hk
    have h1 : (o.default && o.key.isNone && o.secretKey.isNone) = false := by
      simp [hk]
    have h2 : (truthy o.name && o.key.isNone && o.secretKey.isNone) = false := by
      simp [hk]
    have he : (optsToIndex fp fs o).idx = .enc (discoveryKey (datDecode kb)) := by
      simp [optsToIndex, h1, h2, hk, Option.orElse]
    refine ⟨he, ?_⟩
    rw [he]
    intro hcontra
    injection hcontra with h4
    have h5 : (2 : Nat) * (datDecode kb : Nat) + 1 = datDecode kb := h4
    omega

theorem C6_witness :
    (optsToIndex 5 6 { key := some (.txt 3) }).idx =
      specKeyIndexer 5 { key := some (.txt 3) } ∧
    (optsToIndex 5 6 { key := some (.txt 3) }).idx = .enc (discoveryKey 3) ∧
    (optsToIndex 5 6 { key := some (.txt 3) }).idx ≠ .enc 3 :=
  ⟨(C6_key_indexer_order 5 6 { key := some (.txt 3) }).1,
   (C6_key_indexer_order 5 6 { key := some (.txt 3) }).2 (.txt 3) rfl⟩

/-- C9: `getInfo()` is claimed to fail gracefully with null fields when no
default core is set; the source instead reads `this.defaultCore.id`
without a null guard (src/index.js:68), so the accessor throws a TypeError
on every store whose default slot is empty, while it does return a result
whenever a default core exists. -/
theorem C9_getinfo_faults (w : World) (h : w.defaultCore = none) :
    getInfo w = .error () ∧
    (∀ (v : World) (dc : CoreId), v.defaultCore = some dc →
      ∃ info, getInfo v = .ok info) := by
  constructor
  · simp [getInfo, h]
  · intro v dc hv
    refine ⟨{ id := v.storeId, defaultKey := (v.coreTab[dc]?).bind (·.key),
              discoveryKey := (v.coreTab[dc]?).bind (·.dk), replicationId := dc,
              cores := v.cores }, ?_⟩
    simp [getInfo, hv]

theorem C9_witness :
    getInfo (init 0) = .error () ∧
    (∀ (v : World) (dc : CoreId), v.defaultCore = some dc →
      ∃ info, getInfo v = .ok info) :=
  C9_getinfo_faults (init 0) rfl

/-- C4: `replicate({encrypt:true})` with no default core fails
synchronously with the ConfigurationError (`throw new Error('A main core
must be specified before replication.')`, src/index.js:139, modelled as
`Except.error`), and after any `default()` call the same invocation
succeeds and returns a session handle. -/
theorem C4_replicate_encrypt (w : World) (o : CoreOpts) (h : w.defaultCore = none) :
    replicate { encrypt := true } w = .error () ∧
    (∀ ro : ReplOpts, ∃ w2 sid, replicate ro (getDefault o w).1 = .ok (w2, sid)) := by
  constructor
  · exact replicate_error h rfl
  · intro ro
    refine ⟨_, _, replicate_ok ?_⟩
    rw [getDefault_defaultCore o w]
    simp

theorem C4_witness :
    replicate { encrypt := true } (init 0) = .error () ∧
    (∀ ro : ReplOpts, ∃ w2 sid, replicate ro (getDefault {} (init 0)).1 = .ok (w2, sid)) :=
  C4_replicate_encrypt (init 0) {} rfl

/-- C7: `default(request)` is idempotent — when a default core exists
every call returns that same handle unconditionally and ignores the new
request's parameters; otherwise the request is marked default-seeking
exactly when it carries no explicit key or keypair (`markDefault`),
delegated to `get`, and the result is remembered as the default slot, so
any later `default` call returns it without creating a fresh core. -/
theorem C7_default_idempotent (w : World) (o o' : CoreOpts) (c : CoreId)
    (h : w.defaultCore = some c) :
    getDefault o w = (w, c) ∧
    (getDefault o w).2 = (getDefault o' w).2 ∧
    (∀ (v : World) (oo : CoreOpts), v.defaultCore = none →
      getDefault oo v =
        ({ (get (markDefault oo) v).1 with
            defaultCore := some (get (markDefault oo) v).2 },
         (get (markDefault oo) v).2)) ∧
    (∀ (v : World) (oo o2 : CoreOpts),
      getDefault o2 (getDefault oo v).1 = ((getDefault oo v).1, (getDefault oo v).2)) := by
  refine ⟨getDefault_some o h, ?_, ?_, ?_⟩
  · rw [getDefault_some o h, getDefault_some o' h]
  · intro v oo hv
    exact getDefault_none oo hv
  · intro v oo o2
    exact getDefault_some o2 (getDefault_defaultCore oo v)

def wDef : World := (getDefault {} (init 0)).1

theorem C7_witness :
    getDefault { name := some "x" } wDef = (wDef, 0) ∧
    (getDefault { name := some "x" } wDef).2 = (getDefault {} wDef).2 :=
  ⟨(C7_default_idempotent wDef { name := some "x" } {} 0 (by decide)).1,
   (C7_default_idempotent wDef { name := some "x" } {} 0 (by decide)).2.1⟩

/-! ## Concrete executions used to witness the claims -/

/-- Run `replicate` and keep the resulting store (the throwing case keeps
the old store, matching a caught exception). -/
def replicateW (ro : ReplOpts) (w : World) : World :=
  match replicate ro w with
  | .ok p => p.1
  | .error _ => w

def oKey3 : CoreOpts := { key := some (.buf 3) }

def wGot : World := (get oKey3 (init 0)).1

def crKey3 : CoreRec :=
  { key := some 3, secretKey := none, dk := some 7, discoveryOnly := false,
    status := .pending }

def wReady : World := deliverReady 0 99 wGot

def wRepl : World := replicateW { encrypt := false } wReady

theorem step_wGot : Step (init 0) wGot := Step.opGet (init 0) oKey3

theorem step_wReady : Step wGot wReady :=
  Step.evReady wGot 0 99 crKey3 (by decide) (by decide) (fun h => absurd h (by decide))

theorem step_wRepl : Step wReady wRepl :=
  Step.opReplicate wReady wRepl { encrypt := false } 0 rfl

theorem reach_wGot : Reach wGot := ⟨0, Relation.ReflTransGen.refl.tail step_wGot⟩

theorem reach_wReady : Reach wReady := reach_step reach_wGot step_wReady

theorem reach_wRepl : Reach wRepl := reach_step reach_wReady step_wRepl

/-- C2: a ready core is attached to a replication stream at most once —
each stream's feed list is duplicate-free, every registered ready core is
already on every active stream's feed list, and `_replicateCore` on a core
already attached to the stream returns without re-attaching (the feed scan
of src/index.js:49-51). -/
theorem C2_no_duplicate_attach (w : World) (hw : Reach w) :
    (∀ s : StreamId, (feedsOf w s).Nodup) ∧
    (∀ s : StreamId, s ∈ w.replicationStreams →
      ∀ (i : IdxStr) (c : CoreId), (i, c) ∈ w.cores →
        statusOf w c = some .ready → c ∈ feedsOf w s) ∧
    (∀ (c : CoreId) (s : StreamId), statusOf w c = some .ready → c ∈ feedsOf w s →
      replicateCore c s w = w) := by
  have hi := reach_inv hw
  exact ⟨hi.feedsNodup, hi.attached, fun c s hr hm => replicateCore_noop hr hm⟩

theorem C2_witness :
    (feedsOf wRepl 0).Nodup ∧ replicateCore 0 0 wRepl = wRepl :=
  ⟨(C2_no_duplicate_attach wRepl reach_wRepl).1 0,
   (C2_no_duplicate_attach wRepl reach_wRepl).2.2 0 0 (by decide) (by decide)⟩

theorem closedEmpty_step {v v' : World} (hs : Step v v')
    (h : v.cbLog = [] ∧ v.pendingClose = [] ∧ v.closeCtx = some 0) :
    v'.cbLog = [] ∧ v'.pendingClose = [] ∧ v'.closeCtx = some 0 := by
  obtain ⟨h1, h2, h3⟩ := h
  cases hs with
  | opGet o =>
    have hf := get_fields o v
    exact ⟨hf.2.2.2.2.2.1.trans h1, hf.2.2.2.1.trans h2, hf.2.2.2.2.1.trans h3⟩
  | opDefault o =>
    have hf := getDefault_frame o v
    exact ⟨hf.2.2.1.trans h1, hf.1.trans h2, hf.2.1.trans h3⟩
  | opReplicate w2 ro sid hrep =>
    have hf := replicate_frame hrep
    exact ⟨hf.2.2.1.trans h1, hf.1.trans h2, hf.2.1.trans h3⟩
  | opClose hcl =>
    rw [h3] at hcl
    exact absurd hcl (by simp)
  | evReady c pk cr hc hp hdk =>
    have hf := deliverReady_frame c pk v
    exact ⟨hf.2.2.2.1.trans h1, hf.2.1.trans h2, hf.2.2.1.trans h3⟩
  | evError c cr hc hp =>
    have hf := deliverError_frame c v
    exact ⟨hf.2.2.2.1.trans h1, hf.2.1.trans h2, hf.2.2.1.trans h3⟩
  | evFeed s d hsd =>
    have hf := get_fields { discoveryKey := some (.buf d) } v
    exact ⟨hf.2.2.2.2.2.1.trans h1, hf.2.2.2.1.trans h2, hf.2.2.2.2.1.trans h3⟩
  | evTerm s sig hsd =>
    have hf := onclose_fields s v
    exact ⟨hf.2.2.2.2.2.2.1.trans h1, hf.2.2.2.2.1.trans h2, hf.2.2.2.2.2.1.trans h3⟩
  | evCloseDone c e hc =>
    rw [h2] at hc
    exact absurd hc (List.not_mem_nil c)

/-- C3: `close(cb)` on a store with no registered cores never invokes the
callback (code bug).  `remaining` starts at `this.cores.size = 0`
(src/index.js:176), no `core.close(onclose)` is ever issued, the predecrement
`!--remaining` can never fire, and no later step of the store can ever add
to the callback log — the claim that the callback is always invoked with
null once every core is closed fails on the empty store. -/
theorem C3_close_callback_hang :
    (close (init 0)).cbLog = [] ∧
    (close (init 0)).pendingClose = [] ∧
    (close (init 0)).closeCtx = some 0 ∧
    (∀ w' : World, Relation.ReflTransGen Step (close (init 0)) w' → w'.cbLog = []) := by
  refine ⟨by decide, by decide, by decide, ?_⟩
  intro w' hr
  have hq : w'.cbLog = [] ∧ w'.pendingClose = [] ∧ w'.closeCtx = some 0 := by
    induction hr with
    | refl => exact ⟨by decide, by decide, by decide⟩
    | tail hab hbc ih => exact closedEmpty_step hbc ih
  exact hq.1

theorem C3_witness : (get oKey3 (close (init 0))).1.cbLog = [] :=
  C3_close_callback_hang.2.2.2 (get oKey3 (close (init 0))).1
    (Relation.ReflTransGen.refl.tail (Step.opGet (close (init 0)) oKey3))

def wDefC : World := close wDef

/-- C10: `close` tears down cores and sessions but deliberately leaves the
default-core slot populated: right after `close` (and after any further
steps) `isDefaultSet` still reports true, the slot still holds the same
handle, and a later `default()` returns that handle without constructing a
fresh core. -/
theorem C10_close_keeps_default (w : World) (c : CoreId) (o : CoreOpts) (w' : World)
    (h : w.defaultCore = some c)
    (hr : Relation.ReflTransGen Step (close w) w') :
    isDefaultSet (close w) = true ∧
    (close w).defaultCore = some c ∧
    w'.defaultCore = some c ∧
    isDefaultSet w' = true ∧
    getDefault o w' = (w', c) := by
  have hc1 : (close w).defaultCore = some c := ((close_fields w).2.2.2.1).trans h
  have hw' : w'.defaultCore = some c := by
    induction hr with
    | refl => exact hc1
    | tail hab hbc ih => exact defaultCore_mono hbc ih
  refine ⟨?_, hc1, hw', ?_, getDefault_some o hw'⟩
  · rw [isDefaultSet, hc1]
    rfl
  · rw [isDefaultSet, hw']
    rfl

theorem C10_witness :
    isDefaultSet wDefC = true ∧
    wDefC.defaultCore = some 0 ∧
    wDefC.defaultCore = some 0 ∧
    isDefaultSet wDefC = true ∧
    getDefault {} wDefC = (wDefC, 0) :=
  C10_close_keeps_default wDef 0 {} wDefC (by decide) Relation.ReflTransGen.refl

/-- C8: every termination signal of a session's stream (finish, end,
close) runs the same `onclose` handler, whose `closed` flag makes the
removal happen at most once; amended: the removal excises exactly that
session only while the session is still present in `replicationStreams` —
after `close()` has reset the array, a late signal from an old stream
finds `indexOf === -1` and `splice(-1, 1)` removes the most recently
added session instead (see the accompanying counterexample). -/
theorem C8_session_teardown (w : World) (s : StreamId) (st : StreamRec)
    (sig sig' : TermSig) (hst : w.streamTab[s]? = some st)
    (hf : st.closedFlag = false) (hm : s ∈ w.replicationStreams) :
    streamTermHandler sig s w = streamTermHandler sig' s w ∧
    (onclose s w).replicationStreams = w.replicationStreams.erase s ∧
    (∀ (v : World) (t : StreamId), onclose t (onclose t v) = onclose t v) := by
  refine ⟨rfl, ?_, fun v t => onclose_idem t v⟩
  rw [onclose_act hst hf]
  show spliceRemove s w.replicationStreams = w.replicationStreams.erase s
  rw [spliceRemove, if_pos hm]

theorem C8_witness :
    streamTermHandler .fin 0 wRepl = streamTermHandler .closeSig 0 wRepl ∧
    (onclose 0 wRepl).replicationStreams = wRepl.replicationStreams.erase 0 :=
  ⟨(C8_session_teardown wRepl 0 { feeds := [0], destroyCount := 0, closedFlag := false }
      .fin .closeSig (by decide) rfl (by decide)).1,
   (C8_session_teardown wRepl 0 { feeds := [0], destroyCount := 0, closedFlag := false }
      .fin .closeSig (by decide) rfl (by decide)).2.1⟩

def wClose : World := close wRepl

def wCd1 : World := coreCloseDone 0 none wClose

def wCd2 : World := coreCloseDone 0 none wCd1

def wReuse : World := replicateW { encrypt := false } wCd2

theorem step_wClose : Step wRepl wClose := Step.opClose wRepl (by decide)

theorem step_wCd1 : Step wClose wCd1 := Step.evCloseDone wClose 0 none (by decide)

theorem step_wCd2 : Step wCd1 wCd2 := Step.evCloseDone wCd1 0 none (by decide)

theorem step_wReuse : Step wCd2 wReuse :=
  Step.opReplicate wCd2 wReuse { encrypt := false } 1 rfl

theorem reach_wReuse : Reach wReuse :=
  reach_step (reach_step (reach_step (reach_step reach_wRepl step_wClose) step_wCd1)
    step_wCd2) step_wReuse

/-- C8 counterexample: after `close()` resets `replicationStreams`, a new
session (stream 1) is opened; the old stream 0 — destroyed but with its
`onclose` not yet fired, so its `closed` flag is still false — then emits
its close signal, and `splice(indexOf(state), 1) = splice(-1, 1)` removes
the new session 1 from the array, leaving no active sessions.  The claim's
"removes the session from the active set" (exactly that session, at most
once) is violated on this reachable store. -/
theorem C8_counterexample :
    wReuse.replicationStreams = [1] ∧
    (wReuse.streamTab[0]?).map (fun st => st.closedFlag) = some false ∧
    (onclose 0 wReuse).replicationStreams = [] ∧
    Reach (onclose 0 wReuse) := by
  refine ⟨by decide, by decide, by decide, ?_⟩
  exact reach_step reach_wReuse (Step.evTerm wReuse 0 .closeSig (by decide))

theorem discoveryKey_ne (k : Key) : discoveryKey k ≠ k := by
  intro h
  have h5 : (2 : Nat) * (k : Nat) + 1 = k := h
  omega

theorem cores_deliverReady (pk : Key) {c : CoreId} {cr : CoreRec} {w : World}
    (hc : w.coreTab[c]? = some cr) (hst : cr.status = .pending) :
    (deliverReady c pk w).cores =
      mapSet (.enc (cr.dk.getD (discoveryKey (cr.key.getD pk)))) c
        (mapSet (.enc (cr.key.getD pk)) c w.cores) := by
  rw [deliverReady_eq_raw hc hst, drainFold_eq]
  have hRW := readyWorld_fields c pk cr w
  have hJ1 := frame_fields (injFold_frame c
    (readyWorld c pk cr w).replicationStreams (readyWorld c pk cr w))
  have hJ2 := frame_fields (injFold_frame c
    ((((injectIntoReplicationStreams c (readyWorld c pk cr w)).pendingAttach.filter
      (fun p => p.1 == c)).map (fun p => p.2)))
    ({ injectIntoReplicationStreams c (readyWorld c pk cr w) with
       pendingAttach := (injectIntoReplicationStreams c
         (readyWorld c pk cr w)).pendingAttach.filter (fun p => p.1 != c) } : World))
  exact hJ2.2.2.1.trans (hJ1.2.2.1.trans hRW.2.2.2.2.2.2.2.2.2.2)

/-- C1: the store deduplicates, amended.  A `get` whose request resolves
to an index currently bound in the registry returns the existing handle
and constructs no new core; and at the moment a core becomes ready the
`ready` handler (src/index.js:117-124) registers it under exactly the two
encoded-key indexes — its public key and its discovery key, which always
differ — touching no other index.  The claim's unqualified "at most one
core per index" is refuted by the counterexample: the name and default
indexes used for the lookup are never themselves registered, so two `get`
calls with the same name around a ready event yield two distinct handles. -/
theorem C1_dedup_after_ready (w : World) (o : CoreOpts) (c c' : CoreId) (pk : Key)
    (cr : CoreRec) (hw : Reach w)
    (hm : mapGet (optsToIndex w.keyGen w.keyGen o).idx w.cores = some c)
    (hc : w.coreTab[c']? = some cr) (hp : cr.status = .pending)
    (hdk : cr.discoveryOnly = true → cr.dk = some (discoveryKey pk)) :
    (get o w).2 = c ∧
    (get o w).1.coreTab = w.coreTab ∧
    mapGet (.enc (cr.key.getD pk)) (deliverReady c' pk w).cores = some c' ∧
    mapGet (.enc (cr.dk.getD (discoveryKey (cr.key.getD pk)))) (deliverReady c' pk w).cores
      = some c' ∧
    cr.key.getD pk ≠ cr.dk.getD (discoveryKey (cr.key.getD pk)) ∧
    (∀ i : IdxStr, i ≠ .enc (cr.key.getD pk) →
      i ≠ .enc (cr.dk.getD (discoveryKey (cr.key.getD pk))) →
      mapGet i (deliverReady c' pk w).cores = mapGet i w.cores) := by
  have hcore := cores_deliverReady pk hc hp
  have hi := reach_inv hw
  have hkd : cr.key.getD pk ≠ cr.dk.getD (discoveryKey (cr.key.getD pk)) := by
    cases hkk : cr.key with
    | some k0 =>
      have hdk0 := hi.dkConsistent c' cr hc k0 hkk
      rw [hdk0]
      simp only [Option.getD_some]
      exact (discoveryKey_ne k0).symm
    | none =>
      cases hdo : cr.discoveryOnly with
      | true =>
        have hdk0 := hdk hdo
        rw [hdk0]
        simp only [Option.getD_some, Option.getD_none]
        exact (discoveryKey_ne pk).symm
      | false =>
        have hdk0 := hi.dkShape c' cr hc hkk hdo
        rw [hdk0]
        simp only [Option.getD_none]
        exact (discoveryKey_ne pk).symm
  refine ⟨?_, ?_, ?_, ?_, hkd, ?_⟩
  · rw [get_hit hm]
  · rw [get_hit hm]
    dsimp only
    rw [injectIntoReplicationStreams_eq,
      (frame_fields (injFold_frame _ _ _)).2.1, (bumpKey_fields o w).2.1]
  · rw [hcore, mapGet_mapSet_ne _ _ (fun h => hkd (IdxStr.enc.inj h)), mapGet_mapSet_self]
  · rw [hcore, mapGet_mapSet_self]
  · intro i hik hid
    rw [hcore, mapGet_mapSet_ne _ _ hid, mapGet_mapSet_ne _ _ hik]

def oDisc19 : CoreOpts := { discoveryKey := some (.buf 19) }

def wDisc : World := (get oDisc19 wRepl).1

def crDisc : CoreRec :=
  { key := none, secretKey := none, dk := some 19, discoveryOnly := true,
    status := .pending }

theorem step_wDisc : Step wRepl wDisc := Step.opGet wRepl oDisc19

theorem reach_wDisc : Reach wDisc := reach_step reach_wRepl step_wDisc

theorem C1_witness :
    (get oKey3 wDisc).2 = 0 ∧
    (get oKey3 wDisc).1.coreTab = wDisc.coreTab ∧
    mapGet (.enc (crDisc.key.getD 9)) (deliverReady 1 9 wDisc).cores = some 1 ∧
    mapGet (.enc (crDisc.dk.getD (discoveryKey (crDisc.key.getD 9))))
      (deliverReady 1 9 wDisc).cores = some 1 ∧
    crDisc.key.getD 9 ≠ crDisc.dk.getD (discoveryKey (crDisc.key.getD 9)) ∧
    (∀ i : IdxStr, i ≠ .enc (crDisc.key.getD 9) →
      i ≠ .enc (crDisc.dk.getD (discoveryKey (crDisc.key.getD 9))) →
      mapGet i (deliverReady 1 9 wDisc).cores = mapGet i wDisc.cores) :=
  C1_dedup_after_ready wDisc oKey3 0 1 9 crDisc reach_wDisc (by decide) (by decide)
    (by decide) (fun _ => by decide)

def oNameX : CoreOpts := { name := some "x" }

def cx1 : World := (get oNameX (init 0)).1

def crNameX : CoreRec :=
  { key := none, secretKey := none, dk := none, discoveryOnly := false,
    status := .pending }

def cx2 : World := deliverReady 0 5 cx1

theorem step_cx1 : Step (init 0) cx1 := Step.opGet (init 0) oNameX

theorem step_cx2 : Step cx1 cx2 :=
  Step.evReady cx1 0 5 crNameX (by decide) (by decide) (fun h => absurd h (by decide))

theorem reach_cx2 : Reach cx2 :=
  reach_step (reach_step ⟨0, Relation.ReflTransGen.refl⟩ step_cx1) step_cx2

/-- C1 counterexample: a first `get({name:'x'})` creates handle 0; its
`ready` handler registers only the encoded public key and discovery key,
never the name index `'x'`; a second `get({name:'x'})` therefore misses
the registry and creates a second handle 1 for the same request — two
cores for one index, refuting the claim's unqualified deduplication. -/
theorem C1_counterexample :
    (get oNameX (init 0)).2 = 0 ∧
    statusOf cx2 0 = some .ready ∧
    mapGet (.str "x") cx2.cores = none ∧
    (get oNameX cx2).2 = 1 ∧
    cx2.coreTab.length = 1 ∧
    (get oNameX cx2).1.coreTab.length = 2 ∧
    Reach (get oNameX cx2).1 := by
  refine ⟨by decide, by decide, by decide, by decide, by decide, by decide, ?_⟩
  exact reach_step reach_cx2 (Step.opGet cx2 oNameX)

/-- The isolation pack of an errored core: never registered, never
pending-close, never the default, attached to no session. -/
def ErroredIsolated (c : CoreId) (v : World) : Prop :=
  statusOf v c = some .errored ∧
  (∀ i : IdxStr, (i, c) ∉ v.cores) ∧
  c ∉ v.pendingClose ∧
  v.defaultCore ≠ some c ∧
  (∀ s : StreamId, c ∉ feedsOf v s)

theorem errored_isolated_step {c : CoreId} {v v' : World} (hs : Step v v')
    (hp : ErroredIsolated c v) : ErroredIsolated c v' := by
  obtain ⟨h1, h2, h3, h4, h5⟩ := hp
  have hlt : c < v.coreTab.length := statusOf_lt h1
  cases hs with
  | opGet o =>
    have hf := get_fields o v
    refine ⟨(statusOf_get_old o v hlt).trans h1, ?_, ?_, ?_, ?_⟩
    · intro i hm
      rw [hf.1] at hm
      exact h2 i hm
    · rw [hf.2.2.2.1]
      exact h3
    · rw [hf.2.2.1]
      exact h4
    · intro s hm
      rcases mem_feedsOf_get_elim o v hm with hm1 | ⟨i, hm1⟩
      · exact h5 s hm1
      · exact h2 i hm1
  | opDefault o =>
    cases hd : v.defaultCore with
    | some c0 =>
      rw [getDefault_some o hd]
      exact ⟨h1, h2, h3, h4, h5⟩
    | none =>
      rw [getDefault_none o hd]
      dsimp only
      refine ⟨?_, ?_, ?_, ?_, ?_⟩
      · have hst : statusOf ({ (get (markDefault o) v).1 with
            defaultCore := some (get (markDefault o) v).2 } : World) c =
            statusOf (get (markDefault o) v).1 c := statusOf_congr c rfl
        exact hst.trans ((statusOf_get_old (markDefault o) v hlt).trans h1)
      · intro i hm
        have hm' : (i, c) ∈ (get (markDefault o) v).1.cores := hm
        rw [(get_fields (markDefault o) v).1] at hm'
        exact h2 i hm'
      · intro hm
        have hm' : c ∈ (get (markDefault o) v).1.pendingClose := hm
        rw [(get_fields (markDefault o) v).2.2.2.1] at hm'
        exact h3 hm'
      · intro hdc
        have hdc' : (get (markDefault o) v).2 = c := Option.some.inj hdc
        cases hm2 : mapGet (optsToIndex v.keyGen v.keyGen (markDefault o)).idx v.cores with
        | some c0 =>
          have hq : (get (markDefault o) v).2 = c0 := by rw [get_hit hm2]
          rw [hq] at hdc'
          subst hdc'
          exact h2 _ (mapGet_eq_some_mem hm2)
        | none =>
          have hq : (get (markDefault o) v).2 = v.coreTab.length := by rw [get_miss hm2]
          rw [hq] at hdc'
          exact absurd hdc'.symm (Nat.ne_of_lt hlt)
      · intro s hm
        have hm' : c ∈ feedsOf (get (markDefault o) v).1 s := hm
        rcases mem_feedsOf_get_elim (markDefault o) v hm' with hm1 | ⟨i, hm1⟩
        · exact h5 s hm1
        · exact h2 i hm1
  | opReplicate w2 ro sid hrep =>
    obtain ⟨hsid, hw2⟩ := replicate_ok_inv hrep
    have hfr := replicate_frame hrep
    subst hw2
    refine ⟨?_, ?_, ?_, ?_, ?_⟩
    · have hst : statusOf ({ repFold v.streamTab.length v.cores (streamInit v) with
          replicationStreams := (repFold v.streamTab.length v.cores
            (streamInit v)).replicationStreams ++ [v.streamTab.length] } : World) c =
          statusOf (repFold v.streamTab.length v.cores (streamInit v)) c :=
        statusOf_congr c rfl
      exact hst.trans ((statusOf_repFold _ _ _ c).trans ((statusOf_streamInit v c).trans h1))
    · intro i hm
      rw [hfr.2.2.2.2] at hm
      exact h2 i hm
    · rw [hfr.1]
      exact h3
    · rw [hfr.2.2.2.1]
      exact h4
    · intro s hm
      have hm0 : c ∈ feedsOf (repFold v.streamTab.length v.cores (streamInit v)) s := hm
      rcases mem_feedsOf_repFold_elim _ hm0 with hm1 | ⟨p, hpmem, hxp⟩
      · by_cases hslt : s < v.streamTab.length
        · rw [feedsOf_streamInit_old v hslt] at hm1
          exact h5 s hm1
        · by_cases hseq : s = v.streamTab.length
          · subst hseq
            rw [feedsOf_streamInit_new v] at hm1
            cases hd : v.defaultCore with
            | none =>
              rw [hd] at hm1
              exact absurd hm1 (List.not_mem_nil c)
            | some dc =>
              rw [hd] at hm1
              simp only [List.mem_singleton] at hm1
              subst hm1
              exact h4 hd
          · have hover : v.streamTab.length + 1 ≤ s :=
              Nat.lt_of_le_of_ne (Nat.le_of_not_lt hslt) (fun h => hseq h.symm)
            rw [feedsOf_streamInit_over v hover] at hm1
            exact absurd hm1 (List.not_mem_nil c)
      · apply h2 p.1
        rw [hxp]
        exact hpmem
  | opClose hcl =>
    have hf := close_fields v
    refine ⟨(hf.2.2.2.2.2.2.2.2.2.2.2.2 c).trans h1, ?_, ?_, ?_, ?_⟩
    · intro i hm
      rw [hf.2.1] at hm
      exact h2 i hm
    · rw [hf.2.2.2.2.2.2.2.2.2.2.1]
      intro hm
      rcases List.mem_append.mp hm with hm1 | hm1
      · exact h3 hm1
      · have hm2 : c ∈ v.cores.map (fun p => p.2) := List.mem_of_mem_filter hm1
        rcases List.mem_map.mp hm2 with ⟨p, hpmem, hpe⟩
        apply h2 p.1
        rw [← hpe]
        exact hpmem
    · rw [hf.2.2.2.1]
      exact h4
    · intro s hm
      rw [hf.2.2.2.2.2.2.2.2.2.2.2.1 s] at hm
      exact h5 s hm
  | evReady c2 pk cr hc hp2 hdk =>
    have hne : c2 ≠ c := by
      intro he
      have hsc : statusOf v c2 = some CoreStatus.pending := by
        simp only [statusOf, hc, Option.map_some', hp2]
      rw [he, h1] at hsc
      exact absurd hsc (by decide)
    have hf := deliverReady_frame c2 pk v
    refine ⟨(hf.2.2.2.2.2.2.2.1 c hne.symm).trans h1, ?_, ?_, ?_, ?_⟩
    · intro i hm
      rcases hf.2.2.2.2.2.2.2.2.1 with hcase | ⟨cr0, hc0, hp0, hcase⟩
      · rw [hcase] at hm
        exact h2 i hm
      · rw [hcase] at hm
        rcases mem_mapSet hm with ⟨hik, hcv⟩ | hm2
        · exact hne hcv.symm
        · rcases mem_mapSet hm2 with ⟨hik2, hcv2⟩ | hm3
          · exact hne hcv2.symm
          · exact h2 i hm3
    · rw [hf.2.1]
      exact h3
    · rw [hf.1]
      exact h4
    · intro s hm
      rcases hf.2.2.2.2.2.2.2.2.2 s c hm with hm1 | he
      · exact h5 s hm1
      · exact hne he.symm
  | evError c2 cr hc hp2 =>
    have hne : c2 ≠ c := by
      intro he
      have hsc : statusOf v c2 = some CoreStatus.pending := by
        simp only [statusOf, hc, Option.map_some', hp2]
      rw [he, h1] at hsc
      exact absurd hsc (by decide)
    have hf := deliverError_frame c2 v
    refine ⟨(hf.2.2.2.2.2.2.2.2 c hne.symm).trans h1, ?_, ?_, ?_, ?_⟩
    · intro i hm
      rw [hf.2.2.2.2.2.1] at hm
      exact h2 i hm
    · rw [hf.2.1]
      exact h3
    · rw [hf.1]
      exact h4
    · intro s hm
      rw [hf.2.2.2.2.2.2.2.1 s] at hm
      exact h5 s hm
  | evFeed s2 d hs2 =>
    have hf := get_fields { discoveryKey := some (.buf d) } v
    refine ⟨(statusOf_get_old _ v hlt).trans h1, ?_, ?_, ?_, ?_⟩
    · intro i hm
      rw [hf.1] at hm
      exact h2 i hm
    · rw [hf.2.2.2.1]
      exact h3
    · rw [hf.2.2.1]
      exact h4
    · intro s hm
      rcases mem_feedsOf_get_elim _ v hm with hm1 | ⟨i, hm1⟩
      · exact h5 s hm1
      · exact h2 i hm1
  | evTerm s2 sig hs2 =>
    have hf := onclose_fields s2 v
    refine ⟨?_, ?_, ?_, ?_, ?_⟩
    · exact (statusOf_congr c hf.1).trans h1
    · intro i hm
      have hm' : (i, c) ∈ (onclose s2 v).cores := hm
      rw [hf.2.1] at hm'
      exact h2 i hm'
    · intro hm
      have hm' : c ∈ (onclose s2 v).pendingClose := hm
      rw [hf.2.2.2.2.1] at hm'
      exact h3 hm'
    · intro hd
      have hd' : (onclose s2 v).defaultCore = some c := hd
      rw [hf.2.2.1] at hd'
      exact h4 hd'
    · intro s hm
      have hm' : c ∈ feedsOf (onclose s2 v) s := hm
      rw [hf.2.2.2.2.2.2.2.2.2.2.1 s] at hm'
      exact h5 s hm'
  | evCloseDone c2 e hc2 =>
    have hf := coreCloseDone_spec c2 e v
    refine ⟨?_, ?_, ?_, ?_, ?_⟩
    · rcases hf.2.2.2.2.2.2.2.2.1 c with hq | ⟨hxc, hq⟩
      · exact hq.trans h1
      · rw [← hxc] at hc2
        exact absurd hc2 h3
    · intro i hm
      rcases hf.2.2.2.2.2.2.2.1 with ⟨hcs, _⟩ | ⟨hcs, _⟩
      · rw [hcs] at hm
        exact h2 i hm
      · rw [hcs] at hm
        exact absurd hm (List.not_mem_nil _)
    · intro hm
      rw [hf.1] at hm
      exact h3 (List.mem_of_mem_erase hm)
    · intro hd
      rw [hf.2.2.1] at hd
      exact h4 hd
    · intro s hm
      have hm' : feedsOf (coreCloseDone c2 e v) s = feedsOf v s :=
        feedsOf_congr s hf.2.1
      rw [hm'] at hm
      exact h5 s hm

/-- C5: a `get` by discoveryKey for a core absent on disk returns a
synchronous pending handle (at the fresh slot, registry untouched); the
creation error only flags the handle via the transient error listener
(src/index.js:109-115); the ready handler then never runs, so along every
subsequent execution the handle stays errored, is never registered in the
registry (`list()` never shows it), and is never attached to any
replication stream — and no error is thrown at the `get` caller. -/
theorem C5_discovery_error_isolated (w : World) (X : Key) (c : CoreId) (w3 : World)
    (hw : Reach w) (hc : c = w.coreTab.length)
    (hm : mapGet (.enc X) w.cores = none)
    (hr3 : Relation.ReflTransGen Step
      (deliverError c (get { discoveryKey := some (.buf X) } w).1) w3) :
    (get { discoveryKey := some (.buf X) } w).2 = c ∧
    (get { discoveryKey := some (.buf X) } w).1.cores = w.cores ∧
    statusOf (get { discoveryKey := some (.buf X) } w).1 c = some .pending ∧
    statusOf (deliverError c (get { discoveryKey := some (.buf X) } w).1) c
      = some .errored ∧
    statusOf w3 c = some .errored ∧
    (∀ i : IdxStr, (i, c) ∉ listCores w3) ∧
    (∀ s : StreamId, c ∉ feedsOf w3 s) := by
  subst hc
  have hi := reach_inv hw
  have hm' : mapGet (optsToIndex w.keyGen w.keyGen
      ({ discoveryKey := some (.buf X) } : CoreOpts)).idx w.cores = none := hm
  have hmiss := get_miss hm'
  have hglen : (get ({ discoveryKey := some (.buf X) } : CoreOpts) w).1.coreTab =
      w.coreTab ++ [newCoreRec ({ discoveryKey := some (.buf X) } : CoreOpts) w] := by
    rw [hmiss]
  have hret : (get ({ discoveryKey := some (.buf X) } : CoreOpts) w).2 =
      w.coreTab.length := by
    rw [hmiss]
  have hnewpend : statusOf (get ({ discoveryKey := some (.buf X) } : CoreOpts) w).1
      w.coreTab.length = some CoreStatus.pending := by
    unfold statusOf
    rw [hglen, List.getElem?_concat_length]
    rfl
  have hcd : (get ({ discoveryKey := some (.buf X) } : CoreOpts) w).1.coreTab[
      w.coreTab.length]? =
      some (newCoreRec ({ discoveryKey := some (.buf X) } : CoreOpts) w) := by
    rw [hglen, List.getElem?_concat_length]
  have hlen2 : w.coreTab.length <
      (get ({ discoveryKey := some (.buf X) } : CoreOpts) w).1.coreTab.length := by
    rw [hglen]
    simp
  have herr : statusOf (deliverError w.coreTab.length
      (get ({ discoveryKey := some (.buf X) } : CoreOpts) w).1) w.coreTab.length =
      some CoreStatus.errored := by
    rw [deliverError_eq hcd rfl, statusOf_setCore_self _ hlen2]
  have hpack0 : ErroredIsolated w.coreTab.length
      (deliverError w.coreTab.length
        (get ({ discoveryKey := some (.buf X) } : CoreOpts) w).1) := by
    refine ⟨herr, ?_, ?_, ?_, ?_⟩
    · intro i hmem
      have hcores : (deliverError w.coreTab.length
          (get ({ discoveryKey := some (.buf X) } : CoreOpts) w).1).cores = w.cores :=
        ((deliverError_frame _ _).2.2.2.2.2.1).trans (get_fields _ w).1
      rw [hcores] at hmem
      exact absurd (hi.mapValid i _ hmem) (Nat.lt_irrefl _)
    · have hpc : (deliverError w.coreTab.length
          (get ({ discoveryKey := some (.buf X) } : CoreOpts) w).1).pendingClose =
          w.pendingClose :=
        ((deliverError_frame _ _).2.1).trans (get_fields _ w).2.2.2.1
      rw [hpc]
      intro hmem
      exact absurd (hi.pendingCloseValid _ hmem) (Nat.lt_irrefl _)
    · have hdc : (deliverError w.coreTab.length
          (get ({ discoveryKey := some (.buf X) } : CoreOpts) w).1).defaultCore =
          w.defaultCore :=
        ((deliverError_frame _ _).1).trans (get_fields _ w).2.2.1
      rw [hdc]
      intro hd
      exact absurd (hi.defaultValid _ hd) (Nat.lt_irrefl _)
    · intro s hmem
      have hfe : feedsOf (deliverError w.coreTab.length
          (get ({ discoveryKey := some (.buf X) } : CoreOpts) w).1) s =
          feedsOf (get ({ discoveryKey := some (.buf X) } : CoreOpts) w).1 s :=
        (deliverError_frame _ _).2.2.2.2.2.2.2.1 s
      rw [hfe] at hmem
      rcases mem_feedsOf_get_elim _ w hmem with hm1 | ⟨i, hm1⟩
      · exact absurd (hi.feedsValid s _ hm1) (Nat.lt_irrefl _)
      · exact absurd (hi.mapValid i _ hm1) (Nat.lt_irrefl _)
  have hpack3 : ErroredIsolated w.coreTab.length w3 := by
    induction hr3 with
    | refl => exact hpack0
    | tail hab hbc ih => exact errored_isolated_step hbc ih
  exact ⟨hret, (get_fields _ w).1, hnewpend, herr, hpack3.1, hpack3.2.1,
    hpack3.2.2.2.2⟩

theorem C5_witness :
    (get { discoveryKey := some (.buf 19) } wRepl).2 = 1 ∧
    (get { discoveryKey := some (.buf 19) } wRepl).1.cores = wRepl.cores ∧
    statusOf (get { discoveryKey := some (.buf 19) } wRepl).1 1 = some .pending ∧
    statusOf (deliverError 1 (get { discoveryKey := some (.buf 19) } wRepl).1) 1
      = some .errored ∧
    statusOf (deliverError 1 (get { discoveryKey := some (.buf 19) } wRepl).1) 1
      = some .errored ∧
    (∀ i : IdxStr, (i, 1) ∉ listCores
      (deliverError 1 (get { discoveryKey := some (.buf 19) } wRepl).1)) ∧
    (∀ s : StreamId, 1 ∉ feedsOf
      (deliverError 1 (get { discoveryKey := some (.buf 19) } wRepl).1) s) :=
  C5_discovery_error_isolated wRepl 19 1
    (deliverError 1 (get { discoveryKey := some (.buf 19) } wRepl).1)
    reach_wRepl (by decide) (by decide) Relation.ReflTransGen.refl

end Corestore
